import Mathlib

/-!
Verification of the minesweepeers board engine and peer-network layer.

The definitions below are a shallow embedding of the JavaScript sources:

* `src/src/utils/minesweeperLogic.js` — the pure board engine
  (`createEmptyBoard`, `placeMines`, `countAdjacentMines`, `isValidCell`,
  `revealCell`, `toggleFlag`, `revealAllMines`, `checkWinCondition`,
  `countFlags`, `createCellBlueprint`, `createBoardBlueprint`,
  `applyBoardBlueprint`);
* the `PeerNetwork` service (connection registry, broadcast loops,
  heartbeat / reconnection bookkeeping);
* the pending-action loop of the `Minesweeper` component (the
  `FIRST_REVEAL` race guard).

Boards are lists of rows of cells, mirroring the JavaScript array-of-arrays
representation.  JavaScript `Math.random` draws are modelled by an explicit
supply of candidate coordinates, so `placeMines` is a function of that
supply; an exhausted supply (`none` result) models a run of the source
`while` loop that has not yet terminated.  Out-of-range array accesses,
which would throw in JavaScript, are modelled by `Option`.
-/

inductive CellStatus where
  | hidden
  | revealed
  | flagged
deriving DecidableEq, Repr

/-- Cell record: `{isMine, status, adjacentMines}` as in the source. -/
structure Cell where
  isMine : Bool
  status : CellStatus
  adjacentMines : Nat
deriving DecidableEq, Repr

abbrev Board := List (List Cell)

/-- Replace the element at index `n` by `f` applied to it; no-op out of
range.  Models an in-place write `arr[n] = f(arr[n])` to a JavaScript
array. -/
def listModify (f : α → α) : List α → Nat → List α
  | [], _ => []
  | a :: as, 0 => f a :: as
  | a :: as, n + 1 => a :: listModify f as n

/-- Indexed map starting at index `i`; used to model
`arr.map((v, idx) => ...)`. -/
def mapIdxFrom (f : Nat → α → β) : Nat → List α → List β
  | _, [] => []
  | i, a :: as => f i a :: mapIdxFrom f (i + 1) as

/-- Cell lookup `board[y][x]` with natural-number coordinates. -/
def cellAtN (b : Board) (x y : Nat) : Option Cell :=
  (b[y]?).bind (fun row => row[x]?)

/-- Cell lookup with integer coordinates (negative indices read as
`undefined` in JavaScript, hence `none`). -/
def cellAt (b : Board) (x y : Int) : Option Cell :=
  if 0 ≤ x ∧ 0 ≤ y then cellAtN b x.toNat y.toNat else none

/-- Status of the cell at `(x, y)`, when that cell exists. -/
def statusAt (b : Board) (x y : Int) : Option CellStatus :=
  (cellAt b x y).map Cell.status

/-- Width as the source computes it: `board[0].length`. -/
def boardWidth (b : Board) : Nat :=
  (b.headD []).length

/-- Embedding of `isValidCell(board, x, y)`. -/
def isValidCell (b : Board) (x y : Int) : Bool :=
  decide (0 ≤ y) && decide (y < (b.length : Int)) &&
  decide (0 ≤ x) && decide (x < (boardWidth b : Int))

/-- Embedding of `createEmptyBoard(width, height)`. -/
def createEmptyBoard (width height : Nat) : Board :=
  List.replicate height
    (List.replicate width { isMine := false, status := CellStatus.hidden, adjacentMines := 0 })

/-- Rectangularity: the shape every board built by the source has. -/
def Rect (b : Board) (w h : Nat) : Prop :=
  b.length = h ∧ ∀ row ∈ b, row.length = w

/-- Update one cell of the board in place: `board[y][x] = f(board[y][x])`. -/
def modifyCell (b : Board) (x y : Nat) (f : Cell → Cell) : Board :=
  listModify (fun row => listModify f row x) b y

/-- Iteration order of the source double loop
`for dy in -1..1, for dx in -1..1` over `(dx, dy)` pairs, centre
included (used by `countAdjacentMines`). -/
def offsets3x3 : List (Int × Int) :=
  [(-1, -1), (0, -1), (1, -1), (-1, 0), (0, 0), (1, 0), (-1, 1), (0, 1), (1, 1)]

/-- The same iteration order with the centre skipped
(`if (dx === 0 && dy === 0) continue`), used by the reveal flood fill. -/
def offsets8 : List (Int × Int) :=
  [(-1, -1), (0, -1), (1, -1), (-1, 0), (1, 0), (-1, 1), (0, 1), (1, 1)]

/-- Guarded mine test `isValidCell(board, x, y) && board[y][x].isMine`. -/
def mineAt (b : Board) (x y : Int) : Bool :=
  isValidCell b x y && ((cellAt b x y).map Cell.isMine).getD false

/-- Embedding of `countAdjacentMines(board, x, y)`: the loop counter
accumulated over the 3x3 iteration order. -/
def countAdjacentMines (b : Board) (x y : Int) : Nat :=
  offsets3x3.countP (fun d => mineAt b (x + d.1) (y + d.2))

/-- The `isNearFirstClick` test of `placeMines`:
`Math.abs(x - firstX) <= 1 && Math.abs(y - firstY) <= 1`. -/
def isNearFirst (fx fy x y : Nat) : Bool :=
  decide (((x : Int) - fx).natAbs ≤ 1) && decide (((y : Int) - fy).natAbs ≤ 1)

/-- The mine-placement `while` loop of `placeMines`, driven by an explicit
supply of random draws `(x, y)` (each JavaScript draw is in range by
construction; an out-of-range pair models the unreachable crash and yields
`none`).  `n` counts the mines still to place; an exhausted supply with
mines still to place yields `none`, modelling a loop run that has not
terminated yet. -/
def placeMinesAux (fx fy : Nat) : List (Nat × Nat) → Board → Nat → Option Board
  | _, b, 0 => some b
  | [], _, _ + 1 => none
  | (x, y) :: rest, b, n + 1 =>
    match cellAtN b x y with
    | none => none
    | some c =>
      if !c.isMine && !isNearFirst fx fy x y then
        placeMinesAux fx fy rest (modifyCell b x y (fun cell => { cell with isMine := true })) n
      else
        placeMinesAux fx fy rest b (n + 1)

/-- The adjacency pass of `placeMines`.  The source mutates
`newBoard[y][x].adjacentMines` in place while looping; since that loop
only writes `adjacentMines` and `countAdjacentMines` only reads `isMine`,
reading the counts from the un-mutated board is the same computation. -/
def recomputeAdjacents (b : Board) : Board :=
  mapIdxFrom (fun y row =>
    mapIdxFrom (fun x c =>
      if c.isMine then c else { c with adjacentMines := countAdjacentMines b x y }) 0 row) 0 b

/-- Embedding of `placeMines(board, mines, firstX, firstY)` with the random
draws made explicit. -/
def placeMines (rands : List (Nat × Nat)) (b : Board) (mines : Nat) (firstX firstY : Nat) :
    Option Board :=
  (placeMinesAux firstX firstY rands b mines).map recomputeAdjacents

/-- The no-op guard shared by `revealCell` and its inner `reveal`:
out of bounds, already revealed, or flagged. -/
def revealGuard (b : Board) (x y : Int) : Bool :=
  !isValidCell b x y ||
  decide (statusAt b x y = some CellStatus.revealed) ||
  decide (statusAt b x y = some CellStatus.flagged)

/-- Write `REVEALED` into the cell at `(x, y)` (no-op out of range, as the
guard has already ensured validity at every call site). -/
def setRevealed (b : Board) (x y : Int) : Board :=
  if 0 ≤ x ∧ 0 ≤ y then
    modifyCell b x.toNat y.toNat (fun c => { c with status := CellStatus.revealed })
  else b

/-- The recursive inner `reveal` of `revealCell`, with explicit fuel.  The
source recursion terminates because every productive call first turns a
hidden cell into a revealed one; `revealCell` passes one more unit of fuel
than there are cells, which the flood-fill lemmas show is never
exhausted. -/
def revealAux : Nat → Board → Int → Int → Board
  | 0, b, _, _ => b
  | fuel + 1, b, x, y =>
    if revealGuard b x y then b
    else
      if ((cellAt (setRevealed b x y) x y).map
            (fun c => c.adjacentMines == 0 && !c.isMine)).getD false then
        offsets8.foldl (fun acc d => revealAux fuel acc (x + d.1) (y + d.2)) (setRevealed b x y)
      else setRevealed b x y

/-- Total number of cells on the board. -/
def totalCells (b : Board) : Nat :=
  (b.map List.length).sum

/-- Embedding of `revealCell(board, x, y)`. -/
def revealCell (b : Board) (x y : Int) : Board :=
  if revealGuard b x y then b
  else revealAux (totalCells b + 1) b x y

/-- Embedding of `toggleFlag(board, x, y)`. -/
def toggleFlag (b : Board) (x y : Int) : Board :=
  if !isValidCell b x y || decide (statusAt b x y = some CellStatus.revealed) then b
  else if 0 ≤ x ∧ 0 ≤ y then
    modifyCell b x.toNat y.toNat (fun c =>
      { c with status :=
          if c.status = CellStatus.flagged then CellStatus.hidden else CellStatus.flagged })
  else b

/-- Embedding of `revealAllMines(board)`. -/
def revealAllMines (b : Board) : Board :=
  b.map (fun row => row.map (fun c =>
    { c with status :=
        if c.isMine || decide (c.status = CellStatus.revealed) then CellStatus.revealed
        else c.status }))

/-- Embedding of `checkWinCondition(board)`. -/
def checkWinCondition (b : Board) : Bool :=
  b.all (fun row => row.all (fun c =>
    (c.isMine && !decide (c.status = CellStatus.revealed)) ||
    (!c.isMine && decide (c.status = CellStatus.revealed))))

/-- Embedding of `countFlags(board)`. -/
def countFlags (b : Board) : Nat :=
  (b.map (fun row => row.countP (fun c => decide (c.status = CellStatus.flagged)))).sum

/-- Wire cell: `{status, isMine, adjacentMines}`.  `isMine` is `Option`al
because `applyBoardBlueprint` explicitly tests `isMine !== undefined`;
every blueprint the source constructs carries `adjacentMines` exactly when
it carries `isMine`, so the embedding keeps `adjacentMines` alongside. -/
structure BlueprintCell where
  status : CellStatus
  isMine : Option Bool
  adjacentMines : Nat
deriving DecidableEq, Repr

abbrev BoardBlueprint := List (List BlueprintCell)

/-- Embedding of `createCellBlueprint(cell)`. -/
def createCellBlueprint (c : Cell) : BlueprintCell :=
  { status := c.status, isMine := some c.isMine, adjacentMines := c.adjacentMines }

/-- Embedding of `createBoardBlueprint(board)`. -/
def createBoardBlueprint (b : Board) : BoardBlueprint :=
  b.map (fun row => row.map createCellBlueprint)

/-- Blueprint lookup `blueprint[y][x]`. -/
def bpAt (bp : BoardBlueprint) (x y : Nat) : Option BlueprintCell :=
  (bp[y]?).bind (fun row => row[x]?)

/-- Per-cell body of `applyBoardBlueprint`: keep the cell, overwrite
`status`, and overwrite `isMine`/`adjacentMines` only when the blueprint
defines `isMine`.  A missing blueprint cell would throw in JavaScript
(boards and blueprints always have matching dimensions in the source);
the embedding leaves the cell unchanged in that unreachable case. -/
def applyBlueprintCell (c : Cell) : Option BlueprintCell → Cell
  | none => c
  | some bc =>
    match bc.isMine with
    | none => { c with status := bc.status }
    | some m => { c with status := bc.status, isMine := m, adjacentMines := bc.adjacentMines }

/-- Embedding of `applyBoardBlueprint(board, blueprint)`. -/
def applyBoardBlueprint (b : Board) (bp : BoardBlueprint) : Board :=
  mapIdxFrom (fun y row =>
    mapIdxFrom (fun x c => applyBlueprintCell c (bpAt bp x y)) 0 row) 0 b

/-! ### Basic lookup lemmas -/

theorem listModify_nil (f : α → α) (n : Nat) : listModify f [] n = [] := by
  cases n <;> rfl

theorem length_listModify (f : α → α) (l : List α) (n : Nat) :
    (listModify f l n).length = l.length := by
  induction l generalizing n with
  | nil => simp [listModify_nil]
  | cons a as ih =>
    cases n with
    | zero => simp [listModify]
    | succ n => simp [listModify, ih]

theorem getElem?_listModify (f : α → α) (l : List α) (n m : Nat) :
    (listModify f l n)[m]? = if n = m then (l[m]?).map f else l[m]? := by
  induction l generalizing n m with
  | nil => simp [listModify_nil]
  | cons a as ih =>
    cases n with
    | zero =>
      cases m with
      | zero => simp [listModify]
      | succ m => simp [listModify]
    | succ n =>
      cases m with
      | zero => simp [listModify]
      | succ m => simpa [listModify] using ih n m

theorem length_mapIdxFrom (f : Nat → α → β) (i : Nat) (l : List α) :
    (mapIdxFrom f i l).length = l.length := by
  induction l generalizing i with
  | nil => rfl
  | cons a as ih => simp [mapIdxFrom, ih]

theorem getElem?_mapIdxFrom (f : Nat → α → β) (i j : Nat) (l : List α) :
    (mapIdxFrom f i l)[j]? = (l[j]?).map (f (i + j)) := by
  induction l generalizing i j with
  | nil => simp [mapIdxFrom]
  | cons a as ih =>
    cases j with
    | zero => simp [mapIdxFrom]
    | succ j =>
      have := ih (i + 1) j
      simpa [mapIdxFrom, Nat.add_assoc, Nat.add_comm 1 j] using this

theorem cellAtN_modifyCell (b : Board) (x y : Nat) (f : Cell → Cell) (px py : Nat) :
    cellAtN (modifyCell b x y f) px py =
      if x = px ∧ y = py then (cellAtN b px py).map f else cellAtN b px py := by
  unfold cellAtN modifyCell
  rw [getElem?_listModify]
  by_cases hy : y = py
  · subst hy
    cases hrow : b[y]? with
    | none => simp
    | some row =>
      by_cases hx : x = px
      · subst hx
        simp [getElem?_listModify]
      · simp [getElem?_listModify, hx]
  · rw [if_neg hy]
    have hne : ¬(x = px ∧ y = py) := fun h => hy h.2
    rw [if_neg hne]

/-! ### C3: blueprint round-trip -/

theorem bpAt_createBoardBlueprint (b : Board) (x y : Nat) :
    bpAt (createBoardBlueprint b) x y = (cellAtN b x y).map createCellBlueprint := by
  unfold bpAt createBoardBlueprint cellAtN
  rw [List.getElem?_map]
  cases b[y]? with
  | none => rfl
  | some row => simp

theorem cellAtN_applyBoardBlueprint (b : Board) (bp : BoardBlueprint) (x y : Nat) :
    cellAtN (applyBoardBlueprint b bp) x y =
      (cellAtN b x y).map (fun c => applyBlueprintCell c (bpAt bp x y)) := by
  unfold cellAtN applyBoardBlueprint
  rw [getElem?_mapIdxFrom]
  cases b[y]? with
  | none => rfl
  | some row =>
    simp only [Nat.zero_add, Option.map_some', Option.some_bind]
    rw [getElem?_mapIdxFrom]
    cases row[x]? with
    | none => rfl
    | some c => simp

theorem applyBlueprintCell_createCellBlueprint (c : Cell) :
    applyBlueprintCell c (some (createCellBlueprint c)) = c := by
  simp [applyBlueprintCell, createCellBlueprint]

/-- C3 helper: the round trip is the identity, proved by double
extensionality over cell positions. -/
theorem applyBoardBlueprint_roundTrip (b : Board) :
    applyBoardBlueprint b (createBoardBlueprint b) = b := by
  apply List.ext_getElem?
  intro y
  unfold applyBoardBlueprint
  rw [getElem?_mapIdxFrom]
  cases hrow : b[y]? with
  | none => rfl
  | some row =>
    simp only [Option.map_some']
    congr 1
    apply List.ext_getElem?
    intro x
    rw [getElem?_mapIdxFrom]
    cases hc : row[x]? with
    | none => rfl
    | some c =>
      simp only [Nat.zero_add, Option.map_some']
      have hbp : bpAt (createBoardBlueprint b) x y = some (createCellBlueprint c) := by
        rw [bpAt_createBoardBlueprint]
        simp [cellAtN, hrow, hc]
      rw [hbp, applyBlueprintCell_createCellBlueprint]

/-- C3: for every board (in particular every board reachable by Board
Engine operations from `createEmptyBoard`), applying the board's own
blueprint is the identity:
`applyBoardBlueprint board (createBoardBlueprint board) = board`. -/
theorem claim_C3_blueprint_roundTrip (b : Board) :
    applyBoardBlueprint b (createBoardBlueprint b) = b :=
  applyBoardBlueprint_roundTrip b

/-! ### C5: win condition -/

theorem winCell_iff (c : Cell) :
    ((c.isMine && !decide (c.status = CellStatus.revealed)) ||
      (!c.isMine && decide (c.status = CellStatus.revealed))) = true ↔
    ((c.isMine = true → c.status ≠ CellStatus.revealed) ∧
      (c.isMine = false → c.status = CellStatus.revealed)) := by
  cases hm : c.isMine <;> by_cases hs : c.status = CellStatus.revealed <;> simp [hm, hs]

/-- C5: `checkWinCondition` holds exactly when every mine is non-revealed
and every non-mine is revealed; consequently it is never true together
with the existence of a revealed mine. -/
theorem claim_C5_checkWin_spec (b : Board) :
    (checkWinCondition b = true ↔
      ∀ row ∈ b, ∀ c ∈ row,
        (c.isMine = true → c.status ≠ CellStatus.revealed) ∧
        (c.isMine = false → c.status = CellStatus.revealed))
    ∧ ¬(checkWinCondition b = true ∧
        ∃ row ∈ b, ∃ c ∈ row, c.isMine = true ∧ c.status = CellStatus.revealed) := by
  have hiff : checkWinCondition b = true ↔
      ∀ row ∈ b, ∀ c ∈ row,
        (c.isMine = true → c.status ≠ CellStatus.revealed) ∧
        (c.isMine = false → c.status = CellStatus.revealed) := by
    unfold checkWinCondition
    rw [List.all_eq_true]
    constructor
    · intro h row hrow c hc
      exact (winCell_iff c).mp (by
        have := h row hrow
        rw [List.all_eq_true] at this
        exact this c hc)
    · intro h row hrow
      rw [List.all_eq_true]
      intro c hc
      exact (winCell_iff c).mpr (h row hrow c hc)
  refine ⟨hiff, ?_⟩
  rintro ⟨hw, row, hrow, c, hc, hm, hs⟩
  exact ((hiff.mp hw) row hrow c hc).1 hm hs

/-- C5 witness: a concrete one-cell board on which the characterisation is
applied in both directions. -/
theorem claim_C5_checkWin_spec_witness :
    checkWinCondition [[{ isMine := false, status := CellStatus.revealed, adjacentMines := 0 }]]
      = true :=
  (claim_C5_checkWin_spec
    [[{ isMine := false, status := CellStatus.revealed, adjacentMines := 0 }]]).1.mpr (by decide)

/-! ### C10: blueprint application frame conditions -/

/-- C10: when a blueprint cell defines no `isMine`, `applyBoardBlueprint`
rewrites only `status` and leaves `isMine` and `adjacentMines` of the
target cell unchanged; when `isMine` is defined, all three fields come
from the blueprint cell. -/
theorem claim_C10_applyBlueprint_frame (b : Board) (bp : BoardBlueprint) (x y : Nat)
    (c : Cell) (bc : BlueprintCell)
    (hc : cellAtN b x y = some c) (hbc : bpAt bp x y = some bc) :
    (bc.isMine = none →
      cellAtN (applyBoardBlueprint b bp) x y =
        some { isMine := c.isMine, status := bc.status, adjacentMines := c.adjacentMines })
    ∧ (∀ m, bc.isMine = some m →
      cellAtN (applyBoardBlueprint b bp) x y =
        some { isMine := m, status := bc.status, adjacentMines := bc.adjacentMines }) := by
  rw [cellAtN_applyBoardBlueprint, hc, hbc]
  constructor
  · intro hnone
    simp [applyBlueprintCell, hnone]
  · intro m hm
    simp [applyBlueprintCell, hm]

/-- C10 witness: concrete board and blueprint, one cell with `isMine`
undefined. -/
theorem claim_C10_applyBlueprint_frame_witness :
    cellAtN (applyBoardBlueprint
        [[{ isMine := true, status := CellStatus.hidden, adjacentMines := 5 }]]
        [[{ status := CellStatus.flagged, isMine := none, adjacentMines := 9 }]]) 0 0 =
      some { isMine := true, status := CellStatus.flagged, adjacentMines := 5 } :=
  (claim_C10_applyBlueprint_frame
    [[{ isMine := true, status := CellStatus.hidden, adjacentMines := 5 }]]
    [[{ status := CellStatus.flagged, isMine := none, adjacentMines := 9 }]]
    0 0 { isMine := true, status := CellStatus.hidden, adjacentMines := 5 }
    { status := CellStatus.flagged, isMine := none, adjacentMines := 9 }
    (by decide) (by decide)).1 rfl

/-! ### PeerNetwork model

The `PeerNetwork` service keeps several `Map`/`Set` fields keyed by peer
id.  Only key membership and the per-key numeric values (heartbeat
timestamps, reconnection attempt counts) matter to the claims, so maps
are embedded as association lists and sets as key lists. -/

structure UserInfo where
  name : String
  color : String
deriving DecidableEq, Repr

structure TimerConfig where
  enabled : Bool
  minutes : Nat
  seconds : Nat
deriving DecidableEq, Repr

structure GameConfig where
  width : Nat
  height : Nat
  bombs : Nat
  timer : TimerConfig
deriving DecidableEq, Repr

/-- The `currentGameState` object `{config, board, startTime}`. -/
structure GameSessionState where
  config : GameConfig
  board : Option BoardBlueprint
  startTime : Nat
deriving DecidableEq, Repr

/-- The message kinds the connection-open handler can push. -/
inductive NetMsg where
  | userInfoMsg (info : UserInfo)
  | gameConfigMsg (config : GameConfig)
  | gameStateMsg (state : GameSessionState)
  | peerListMsg (peers : List String)
deriving DecidableEq, Repr

/-- True exactly on the two session-priming messages of the claim:
`GAME_CONFIG` and `GAME_STATE`. -/
def NetMsg.isGamePush : NetMsg → Bool
  | .gameConfigMsg _ => true
  | .gameStateMsg _ => true
  | _ => false

/-- Key-set insertion (`Map.set` / `Set.add` restricted to keys). -/
def insertKey (k : String) (l : List String) : List String :=
  if k ∈ l then l else k :: l

/-- Key removal (`Map.delete` / `Set.delete` restricted to keys). -/
def eraseKey (l : List String) (k : String) : List String :=
  l.filter (fun s => !decide (s = k))

/-- Association-list `Map.set`. -/
def alistSet (l : List (String × Nat)) (k : String) (v : Nat) : List (String × Nat) :=
  (k, v) :: l.filter (fun p => !decide (p.1 = k))

/-- Association-list `Map.get` (`undefined` becomes `none`). -/
def alistGet (l : List (String × Nat)) (k : String) : Option Nat :=
  (l.find? (fun p => decide (p.1 = k))).map Prod.snd

/-- Association-list `Map.delete`. -/
def alistErase (l : List (String × Nat)) (k : String) : List (String × Nat) :=
  l.filter (fun p => !decide (p.1 = k))

/-- The synchronous per-peer state of the `PeerNetwork` class (the fields
the claims are about). -/
structure NetState where
  connections : List String
  outgoingConnections : List String
  connectedUsers : List String
  pendingUserInfoRequests : List String
  lastHeartbeats : List (String × Nat)
  reconnectionAttempts : List (String × Nat)
  cursorTimestamps : List String
  userInfo : Option UserInfo
  currentGameConfig : Option GameConfig
  currentGameState : Option GameSessionState
deriving DecidableEq, Repr

def HEARTBEAT_TIMEOUT : Nat := 15000

def MAX_RECONNECTION_ATTEMPTS : Nat := 3

/-- Timer adjustment performed before pushing `GAME_STATE` to a newly
opened inbound connection: remaining time is the configured total minus
the elapsed whole seconds, clamped at zero (`Math.max(0, ...)` is Nat
subtraction). -/
def adjustStateTimer (st : GameSessionState) (now : Nat) : GameSessionState :=
  let t := st.config.timer
  let totalSeconds := t.minutes * 60 + t.seconds
  let elapsedSeconds := (now - st.startTime) / 1000
  let remainingSeconds := totalSeconds - elapsedSeconds
  { st with config := { st.config with timer :=
      { t with minutes := remainingSeconds / 60, seconds := remainingSeconds % 60 } } }

/-- Embedding of the `conn.on('open', ...)` handler of
`handleIncomingConnection`: register the connection, send `USER_INFO` when
an identity exists, send `GAME_CONFIG` / `GAME_STATE` and the peer list
only when the connection was not initiated locally, and start heartbeat
tracking.  The returned list is the sequence of messages pushed to the
newly opened connection. -/
def handleConnectionOpen (s : NetState) (peer : String) (now : Nat) : NetState × List NetMsg :=
  let s1 : NetState := { s with connections := insertKey peer s.connections }
  let userMsgs := match s1.userInfo with
    | some info => [NetMsg.userInfoMsg info]
    | none => []
  let gameMsgs :=
    if peer ∈ s1.outgoingConnections then []
    else
      (match s1.currentGameConfig, s1.currentGameState with
        | some cfg, none => [NetMsg.gameConfigMsg cfg]
        | _, _ => []) ++
      (match s1.currentGameState with
        | some st =>
          match st.board with
          | some _ => [NetMsg.gameStateMsg (adjustStateTimer st now)]
          | none => []
        | none => [])
  let peerMsgs :=
    if peer ∈ s1.outgoingConnections then [] else [NetMsg.peerListMsg s1.connections]
  ({ s1 with lastHeartbeats := alistSet s1.lastHeartbeats peer now },
    userMsgs ++ gameMsgs ++ peerMsgs)

/-- Embedding of `connectToPeer`: the target peer is recorded in the
outgoing-connections set before any handler can run, so a later `open`
event sees it there. -/
def connectToPeer (s : NetState) (target : String) : NetState :=
  { s with outgoingConnections := insertKey target s.outgoingConnections }

/-- Embedding of the `conn.on('close', ...)` handler: full cleanup of
every per-peer entry. -/
def handleConnectionClose (s : NetState) (peer : String) : NetState :=
  { s with
    connections := eraseKey s.connections peer,
    outgoingConnections := eraseKey s.outgoingConnections peer,
    connectedUsers := eraseKey s.connectedUsers peer,
    pendingUserInfoRequests := eraseKey s.pendingUserInfoRequests peer,
    lastHeartbeats := alistErase s.lastHeartbeats peer,
    reconnectionAttempts := alistErase s.reconnectionAttempts peer }

/-- Embedding of the `handlePeerDisconnected` method (cursor cleanup
only). -/
def handlePeerDisconnected (s : NetState) (peer : String) : NetState :=
  { s with cursorTimestamps := eraseKey s.cursorTimestamps peer }

/-- Embedding of `attemptReconnection`.  `connectFails` tells whether the
`connectToPeer` call inside the `try` block throws for this peer. -/
def attemptReconnection (s : NetState) (peer : String) (connectFails : Bool) : NetState :=
  let attempts := (alistGet s.reconnectionAttempts peer).getD 0 + 1
  let s1 : NetState := { s with reconnectionAttempts := alistSet s.reconnectionAttempts peer attempts }
  if connectFails then
    if MAX_RECONNECTION_ATTEMPTS ≤ attempts then
      let s2 := handlePeerDisconnected s1 peer
      { s2 with
        reconnectionAttempts := alistErase s2.reconnectionAttempts peer,
        lastHeartbeats := alistErase s2.lastHeartbeats peer }
    else s1
  else
    let s2 := connectToPeer s1 peer
    { s2 with reconnectionAttempts := alistErase s2.reconnectionAttempts peer }

/-- Embedding of `checkStaleConnections`: iterate the heartbeat map and,
for peers silent longer than the timeout whose attempt count is below the
maximum, run a reconnection attempt. -/
def checkStaleConnections (s : NetState) (now : Nat) (connectFails : String → Bool) : NetState :=
  s.lastHeartbeats.foldl (fun acc p =>
    if HEARTBEAT_TIMEOUT < now - p.2 then
      if (alistGet acc.reconnectionAttempts p.1).getD 0 < MAX_RECONNECTION_ATTEMPTS then
        attemptReconnection acc p.1 (connectFails p.1)
      else acc
    else acc) s

/-! ### C7: inbound-only session push -/

theorem mem_insertKey_self (k : String) (l : List String) : k ∈ insertKey k l := by
  unfold insertKey
  by_cases h : k ∈ l
  · rw [if_pos h]
    exact h
  · rw [if_neg h]
    exact List.mem_cons_self k l

/-- C7: the connection-open handler pushes `GAME_CONFIG` / `GAME_STATE`
only on inbound connections; it does push the active config (when no game
is running) and the active session state (when a board exists) to inbound
peers; and after `connectToPeer` the subsequent open event never pushes
either message. -/
theorem claim_C7_inbound_only_push (s : NetState) (p : String) (now : Nat) :
    (p ∈ s.outgoingConnections →
      ∀ m ∈ (handleConnectionOpen s p now).2, m.isGamePush = false)
    ∧ (p ∉ s.outgoingConnections →
        (∀ cfg, s.currentGameConfig = some cfg → s.currentGameState = none →
          NetMsg.gameConfigMsg cfg ∈ (handleConnectionOpen s p now).2)
        ∧ (∀ st bp, s.currentGameState = some st → st.board = some bp →
          NetMsg.gameStateMsg (adjustStateTimer st now) ∈ (handleConnectionOpen s p now).2))
    ∧ (∀ m ∈ (handleConnectionOpen (connectToPeer s p) p now).2, m.isGamePush = false) := by
  refine ⟨?_, ?_, ?_⟩
  · intro hp m hm
    unfold handleConnectionOpen at hm
    simp only [if_pos hp, List.append_nil] at hm
    cases hinfo : s.userInfo with
    | none => simp [hinfo] at hm
    | some info =>
      simp [hinfo] at hm
      simp [hm, NetMsg.isGamePush]
  · intro hp
    constructor
    · intro cfg hcfg hstate
      unfold handleConnectionOpen
      simp only [if_neg hp, hcfg, hstate]
      cases s.userInfo <;> simp
    · intro st bp hst hbp
      unfold handleConnectionOpen
      simp only [if_neg hp, hst, hbp]
      cases s.userInfo <;> cases s.currentGameConfig <;> simp
  · intro m hm
    have hp : p ∈ (connectToPeer s p).outgoingConnections := mem_insertKey_self p _
    unfold handleConnectionOpen at hm
    simp only [if_pos hp, List.append_nil] at hm
    cases hinfo : s.userInfo with
    | none => simp [connectToPeer, hinfo] at hm
    | some info =>
      simp [connectToPeer, hinfo] at hm
      simp [hm, NetMsg.isGamePush]

def sampleConfig : GameConfig :=
  { width := 9, height := 9, bombs := 10,
    timer := { enabled := false, minutes := 0, seconds := 0 } }

def sampleNetState : NetState :=
  { connections := [], outgoingConnections := [], connectedUsers := [],
    pendingUserInfoRequests := [], lastHeartbeats := [], reconnectionAttempts := [],
    cursorTimestamps := [], userInfo := none,
    currentGameConfig := some sampleConfig, currentGameState := none }

/-- C7 witness: the active config is pushed to a concrete inbound peer. -/
theorem claim_C7_inbound_only_push_witness :
    NetMsg.gameConfigMsg sampleConfig ∈ (handleConnectionOpen sampleNetState "r" 0).2 :=
  ((claim_C7_inbound_only_push sampleNetState "r" 0).2.1 (by decide)).1 sampleConfig rfl rfl

/-! ### C8: broadcast failure isolation

`broadcastMessage` (chat) iterates `this.connections.forEach(conn =>
conn.send(message))` with no per-connection `try`/`catch`: a throwing
`send` aborts the `forEach` and the message never reaches the connections
that follow the failing one in iteration order.  `updateGameState`
(`GAME_STATE` broadcast) wraps each `send` in `try`/`catch`.  `fails c`
models whether `conn.send` throws on connection `c`; each loop returns
the list of connections whose `send` completed. -/

/-- Send loop without `try`/`catch` (the chat broadcast of
`broadcastMessage`): the first failure aborts the remaining iterations. -/
def sendLoopUncaught (fails : String → Bool) : List String → List String
  | [] => []
  | c :: rest => if fails c then [] else c :: sendLoopUncaught fails rest

/-- Send loop with per-connection `try`/`catch` (the `GAME_STATE`
broadcast of `updateGameState`): a failure skips only that connection. -/
def sendLoopCaught (fails : String → Bool) : List String → List String
  | [] => []
  | c :: rest =>
    if fails c then sendLoopCaught fails rest else c :: sendLoopCaught fails rest

/-- Connections actually reached by `broadcastMessage` (chat). -/
def broadcastMessageDelivered (conns : List String) (fails : String → Bool) : List String :=
  sendLoopUncaught fails conns

/-- Connections actually reached by `updateGameState` (`GAME_STATE`). -/
def updateGameStateDelivered (conns : List String) (fails : String → Bool) : List String :=
  sendLoopCaught fails conns

/-- C8 counterexample: with two live connections and a send failure on the
first one, the chat broadcast never reaches the second (healthy)
connection, while the game-state broadcast does. -/
theorem claim_C8_counterexample :
    ("b" ∈ (["a", "b"] : List String))
    ∧ (fun s => decide (s = "a")) "b" = false
    ∧ "b" ∉ broadcastMessageDelivered ["a", "b"] (fun s => decide (s = "a"))
    ∧ "b" ∈ updateGameStateDelivered ["a", "b"] (fun s => decide (s = "a")) := by
  refine ⟨by decide, by decide, ?_, by decide⟩
  decide

/-- C8 amended: per-connection failure isolation holds for the
`GAME_STATE` broadcast loop of `updateGameState` (every connection whose
send does not fail receives the message); the chat broadcast loop of
`broadcastMessage` has no per-connection catch, so a failing send truncates
delivery to the connections preceding the first failure. -/
theorem claim_C8_amended (conns : List String) (fails : String → Bool) :
    (∀ c ∈ conns, fails c = false → c ∈ updateGameStateDelivered conns fails)
    ∧ (∀ pre c post, conns = pre ++ c :: post → (∀ d ∈ pre, fails d = false) →
        fails c = true → broadcastMessageDelivered conns fails = pre) := by
  constructor
  · intro c hc hfail
    unfold updateGameStateDelivered
    induction conns with
    | nil => cases hc
    | cons a rest ih =>
      unfold sendLoopCaught
      rcases List.mem_cons.mp hc with rfl | hmem
      · rw [if_neg (by rw [hfail]; exact Bool.false_ne_true)]
        exact List.mem_cons_self _ _
      · by_cases ha : fails a = true
        · rw [if_pos ha]
          exact ih hmem
        · rw [if_neg ha]
          exact List.mem_cons_of_mem _ (ih hmem)
  · intro pre c post hconns hpre hfail
    subst hconns
    unfold broadcastMessageDelivered
    induction pre with
    | nil =>
      rw [List.nil_append]
      simp only [sendLoopUncaught]
      rw [if_pos hfail]
    | cons d rest ih =>
      have hd : fails d = false := hpre d (List.mem_cons_self _ _)
      rw [List.cons_append]
      simp only [sendLoopUncaught]
      rw [if_neg (by rw [hd]; exact Bool.false_ne_true)]
      rw [ih (fun e he => hpre e (List.mem_cons_of_mem _ he))]

/-- C8 amended witness: concrete two-connection instance of both
conjuncts. -/
theorem claim_C8_amended_witness :
    "b" ∈ updateGameStateDelivered ["a", "b"] (fun s => decide (s = "a"))
    ∧ broadcastMessageDelivered ["a", "b"] (fun s => decide (s = "a")) = [] :=
  ⟨(claim_C8_amended ["a", "b"] (fun s => decide (s = "a"))).1 "b" (by decide) (by decide),
   (claim_C8_amended ["a", "b"] (fun s => decide (s = "a"))).2 [] "a" ["b"] rfl
     (by intro d hd; cases hd) (by decide)⟩

/-! ### C9: reconnection exhaustion leaves zombie entries

On the final failed reconnection attempt the source runs
`this.handlePeerDisconnected(peerId)` — the cursor-cleanup method — and
deletes only the heartbeat and attempt-counter entries.  Unlike the
`close` handler, it never removes the peer from `connections` or
`connectedUsers`. -/

def zombieProneState : NetState :=
  { connections := ["p"], outgoingConnections := [], connectedUsers := ["p"],
    pendingUserInfoRequests := [], lastHeartbeats := [("p", 0)],
    reconnectionAttempts := [("p", 2)], cursorTimestamps := ["p"],
    userInfo := none, currentGameConfig := none, currentGameState := none }

/-- C9: on a stale peer whose third reconnection attempt fails, the
stale-connection sweep removes the heartbeat and attempt entries but
leaves the peer in `connections` and `connectedUsers` — unlike
`handleConnectionClose`, which removes both.  The claimed
"same cleanup as an explicit close" therefore does not happen. -/
theorem claim_C9_exhaustion_divergence :
    ("p" ∈ (checkStaleConnections zombieProneState 20000 (fun _ => true)).connections
      ∧ "p" ∈ (checkStaleConnections zombieProneState 20000 (fun _ => true)).connectedUsers
      ∧ alistGet (checkStaleConnections zombieProneState 20000 (fun _ => true)).lastHeartbeats "p"
          = none
      ∧ alistGet
          (checkStaleConnections zombieProneState 20000 (fun _ => true)).reconnectionAttempts "p"
          = none
      ∧ "p" ∉ (checkStaleConnections zombieProneState 20000 (fun _ => true)).cursorTimestamps)
    ∧ ("p" ∉ (handleConnectionClose zombieProneState "p").connections
      ∧ "p" ∉ (handleConnectionClose zombieProneState "p").connectedUsers
      ∧ alistGet (handleConnectionClose zombieProneState "p").lastHeartbeats "p" = none
      ∧ alistGet (handleConnectionClose zombieProneState "p").reconnectionAttempts "p" = none) := by
  constructor
  · refine ⟨?_, ?_, ?_, ?_, ?_⟩ <;> decide
  · refine ⟨?_, ?_, ?_, ?_⟩ <;> decide

/-! ### Board evolution relation

Every board the reveal flood fill produces differs from its input only by
turning some hidden cells into revealed ones.  `cellStep`/`boardStep`
capture that relation; all monotonicity and frame facts about
`revealCell` follow from it. -/

def cellStep (c d : Cell) : Prop :=
  d = c ∨ (c.status = CellStatus.hidden ∧ d = { c with status := CellStatus.revealed })

def boardStep (b b2 : Board) : Prop :=
  List.Forall₂ (List.Forall₂ cellStep) b b2

theorem cellStep_refl (c : Cell) : cellStep c c := Or.inl rfl

theorem cellStep_trans {c d e : Cell} (h1 : cellStep c d) (h2 : cellStep d e) : cellStep c e := by
  rcases h1 with rfl | ⟨hc, rfl⟩
  · exact h2
  · rcases h2 with rfl | ⟨hd, rfl⟩
    · exact Or.inr ⟨hc, rfl⟩
    · cases hd

theorem forall2_refl_of {R : α → α → Prop} (h : ∀ a, R a a) (l : List α) :
    List.Forall₂ R l l := by
  induction l with
  | nil => exact List.Forall₂.nil
  | cons a as ih => exact List.Forall₂.cons (h a) ih

theorem forall2_trans_of {R : α → α → Prop} (h : ∀ a b c, R a b → R b c → R a c) :
    ∀ {l1 l2 l3 : List α}, List.Forall₂ R l1 l2 → List.Forall₂ R l2 l3 → List.Forall₂ R l1 l3 := by
  intro l1 l2 l3 h12 h23
  induction h12 generalizing l3 with
  | nil => cases h23; exact List.Forall₂.nil
  | cons hab h12 ih =>
    cases h23 with
    | cons hbc h23 => exact List.Forall₂.cons (h _ _ _ hab hbc) (ih h23)

theorem boardStep_refl (b : Board) : boardStep b b :=
  forall2_refl_of (fun row => forall2_refl_of cellStep_refl row) b

theorem boardStep_trans {b1 b2 b3 : Board} (h1 : boardStep b1 b2) (h2 : boardStep b2 b3) :
    boardStep b1 b3 := by
  refine forall2_trans_of ?_ h1 h2
  intro r1 r2 r3 h12 h23
  refine forall2_trans_of ?_ h12 h23
  intro c1 c2 c3 hc1 hc2
  exact cellStep_trans hc1 hc2

theorem forall2_getElem? {R : α → β → Prop} {l1 : List α} {l2 : List β}
    (h : List.Forall₂ R l1 l2) (i : Nat) :
    (l1[i]? = none ∧ l2[i]? = none) ∨
      ∃ a b, l1[i]? = some a ∧ l2[i]? = some b ∧ R a b := by
  induction h generalizing i with
  | nil => exact Or.inl ⟨rfl, rfl⟩
  | cons hab hrest ih =>
    cases i with
    | zero => refine Or.inr ⟨_, _, ?_, ?_, hab⟩ <;> simp
    | succ i => simpa using ih i

theorem boardStep_cellAtN {b b2 : Board} (h : boardStep b b2) (x y : Nat) :
    (cellAtN b x y = none ∧ cellAtN b2 x y = none) ∨
      ∃ c d, cellAtN b x y = some c ∧ cellAtN b2 x y = some d ∧ cellStep c d := by
  unfold cellAtN
  rcases forall2_getElem? h y with ⟨h1, h2⟩ | ⟨r1, r2, h1, h2, hrow⟩
  · rw [h1, h2]
    exact Or.inl ⟨rfl, rfl⟩
  · rw [h1, h2]
    simp only [Option.some_bind]
    rcases forall2_getElem? hrow x with ⟨g1, g2⟩ | ⟨c, d, g1, g2, hc⟩
    · rw [g1, g2]
      exact Or.inl ⟨rfl, rfl⟩
    · rw [g1, g2]
      exact Or.inr ⟨c, d, rfl, rfl, hc⟩

theorem boardStep_cellAt {b b2 : Board} (h : boardStep b b2) (x y : Int) :
    (cellAt b x y = none ∧ cellAt b2 x y = none) ∨
      ∃ c d, cellAt b x y = some c ∧ cellAt b2 x y = some d ∧ cellStep c d := by
  unfold cellAt
  by_cases hxy : 0 ≤ x ∧ 0 ≤ y
  · rw [if_pos hxy, if_pos hxy]
    exact boardStep_cellAtN h x.toNat y.toNat
  · rw [if_neg hxy, if_neg hxy]
    exact Or.inl ⟨rfl, rfl⟩

theorem cellStep_isMine {c d : Cell} (h : cellStep c d) : d.isMine = c.isMine := by
  rcases h with rfl | ⟨_, rfl⟩ <;> rfl

theorem cellStep_adjacentMines {c d : Cell} (h : cellStep c d) :
    d.adjacentMines = c.adjacentMines := by
  rcases h with rfl | ⟨_, rfl⟩ <;> rfl

theorem boardStep_isMine {b b2 : Board} (h : boardStep b b2) (x y : Int) :
    (cellAt b2 x y).map Cell.isMine = (cellAt b x y).map Cell.isMine := by
  rcases boardStep_cellAt h x y with ⟨h1, h2⟩ | ⟨c, d, h1, h2, hc⟩
  · rw [h1, h2]
  · rw [h1, h2]
    simp [cellStep_isMine hc]

theorem boardStep_length {b b2 : Board} (h : boardStep b b2) : b2.length = b.length :=
  (List.Forall₂.length_eq h).symm

theorem boardStep_boardWidth {b b2 : Board} (h : boardStep b b2) :
    boardWidth b2 = boardWidth b := by
  cases h with
  | nil => rfl
  | cons hrow hrest =>
    unfold boardWidth
    simp only [List.headD_cons]
    exact List.Forall₂.length_eq hrow |>.symm

theorem boardStep_isValidCell {b b2 : Board} (h : boardStep b b2) (x y : Int) :
    isValidCell b2 x y = isValidCell b x y := by
  unfold isValidCell
  rw [boardStep_length h, boardStep_boardWidth h]

theorem boardStep_revealed_mono {b b2 : Board} (h : boardStep b b2) (x y : Int)
    (hr : statusAt b x y = some CellStatus.revealed) :
    statusAt b2 x y = some CellStatus.revealed := by
  unfold statusAt at hr ⊢
  rcases boardStep_cellAt h x y with ⟨h1, _⟩ | ⟨c, d, h1, h2, hc⟩
  · rw [h1] at hr
    cases hr
  · rw [h1] at hr
    rw [h2]
    rcases hc with rfl | ⟨hcs, rfl⟩
    · exact hr
    · simp

theorem boardStep_hidden_back {b b2 : Board} (h : boardStep b b2) (x y : Int)
    (hr : statusAt b2 x y = some CellStatus.hidden) :
    statusAt b x y = some CellStatus.hidden := by
  unfold statusAt at hr ⊢
  rcases boardStep_cellAt h x y with ⟨_, h2⟩ | ⟨c, d, h1, h2, hc⟩
  · rw [h2] at hr
    cases hr
  · rw [h2] at hr
    rw [h1]
    rcases hc with rfl | ⟨hcs, rfl⟩
    · exact hr
    · simp only [Option.map_some', Option.some.injEq] at hr
      exact absurd hr (by decide)

theorem boardStep_flagged {b b2 : Board} (h : boardStep b b2) (x y : Int)
    (hr : statusAt b x y = some CellStatus.flagged) :
    statusAt b2 x y = some CellStatus.flagged := by
  unfold statusAt at hr ⊢
  rcases boardStep_cellAt h x y with ⟨h1, _⟩ | ⟨c, d, h1, h2, hc⟩
  · rw [h1] at hr
    cases hr
  · rw [h1] at hr
    rw [h2]
    simp only [Option.map_some', Option.some.injEq] at hr
    rcases hc with rfl | ⟨hcs, rfl⟩
    · simp [hr]
    · rw [hcs] at hr
      exact absurd hr (by decide)

theorem boardStep_status_or {b b2 : Board} (h : boardStep b b2) (x y : Int) :
    statusAt b2 x y = statusAt b x y ∨
      (statusAt b x y = some CellStatus.hidden ∧
        statusAt b2 x y = some CellStatus.revealed) := by
  unfold statusAt
  rcases boardStep_cellAt h x y with ⟨h1, h2⟩ | ⟨c, d, h1, h2, hc⟩
  · rw [h1, h2]
    exact Or.inl rfl
  · rw [h1, h2]
    rcases hc with rfl | ⟨hcs, rfl⟩
    · exact Or.inl rfl
    · exact Or.inr ⟨by simp [hcs], by simp⟩

theorem listModify_eq_self_of_none {f : α → α} {l : List α} {n : Nat} (h : l[n]? = none) :
    listModify f l n = l := by
  induction l generalizing n with
  | nil => exact listModify_nil f n
  | cons a as ih =>
    cases n with
    | zero => simp at h
    | succ n =>
      simp only [List.getElem?_cons_succ] at h
      simp [listModify, ih h]

theorem listModify_eq_self {f : α → α} {l : List α} {n : Nat}
    (h : ∀ a, l[n]? = some a → f a = a) : listModify f l n = l := by
  induction l generalizing n with
  | nil => exact listModify_nil f n
  | cons a as ih =>
    cases n with
    | zero => simp [listModify, h a (by simp)]
    | succ n =>
      simp only [listModify, List.cons.injEq, true_and]
      exact ih (fun b hb => h b (by simpa using hb))

theorem modifyCell_eq_self {b : Board} {x y : Nat} {f : Cell → Cell}
    (h : cellAtN b x y = none) : modifyCell b x y f = b := by
  unfold modifyCell
  apply listModify_eq_self
  intro row hrow
  apply listModify_eq_self
  intro c hc
  unfold cellAtN at h
  rw [hrow] at h
  simp only [Option.some_bind] at h
  rw [h] at hc
  cases hc


theorem forall2_listModify {R : α → α → Prop} (hrefl : ∀ a, R a a) (g : α → α)
    (l : List α) (n : Nat) (hn : ∀ a, l[n]? = some a → R a (g a)) :
    List.Forall₂ R l (listModify g l n) := by
  induction l generalizing n with
  | nil =>
    rw [listModify_nil]
    exact List.Forall₂.nil
  | cons a as ih =>
    cases n with
    | zero =>
      show List.Forall₂ R (a :: as) (g a :: as)
      exact List.Forall₂.cons (hn a (by simp)) (forall2_refl_of hrefl as)
    | succ n =>
      show List.Forall₂ R (a :: as) (a :: listModify g as n)
      exact List.Forall₂.cons (hrefl a) (ih n (fun b hb => hn b (by simpa using hb)))

theorem boardStep_setRevealed (b : Board) (x y : Int)
    (h : ∀ c, cellAt b x y = some c → c.status = CellStatus.hidden) :
    boardStep b (setRevealed b x y) := by
  unfold setRevealed
  by_cases hxy : 0 ≤ x ∧ 0 ≤ y
  · rw [if_pos hxy]
    unfold modifyCell
    apply forall2_listModify (fun row => forall2_refl_of cellStep_refl row)
    intro row hrow
    apply forall2_listModify cellStep_refl
    intro c hc
    right
    refine ⟨?_, rfl⟩
    apply h
    unfold cellAt cellAtN
    rw [if_pos hxy, hrow]
    simpa using hc
  · rw [if_neg hxy]
    exact boardStep_refl b

theorem revealGuard_false {b : Board} {x y : Int} (hg : revealGuard b x y = false) :
    isValidCell b x y = true ∧ ∀ c, cellAt b x y = some c → c.status = CellStatus.hidden := by
  unfold revealGuard at hg
  simp only [Bool.or_eq_false_iff, Bool.not_eq_false', decide_eq_false_iff_not] at hg
  obtain ⟨⟨hvalid, hnrev⟩, hnflag⟩ := hg
  refine ⟨hvalid, ?_⟩
  intro c hc
  have hs : statusAt b x y = some c.status := by
    unfold statusAt
    rw [hc]
    rfl
  cases hcs : c.status with
  | hidden => rfl
  | revealed =>
    rw [hcs] at hs
    exact absurd hs hnrev
  | flagged =>
    rw [hcs] at hs
    exact absurd hs hnflag

theorem boardStep_foldl {g : Board → Int × Int → Board}
    (hg : ∀ acc d, boardStep acc (g acc d)) (l : List (Int × Int)) :
    ∀ acc : Board, boardStep acc (l.foldl g acc) := by
  induction l with
  | nil =>
    intro acc
    exact boardStep_refl acc
  | cons d rest ih =>
    intro acc
    exact boardStep_trans (hg acc d) (ih (g acc d))

theorem boardStep_revealAux : ∀ (fuel : Nat) (b : Board) (x y : Int),
    boardStep b (revealAux fuel b x y) := by
  intro fuel
  induction fuel with
  | zero =>
    intro b x y
    exact boardStep_refl b
  | succ fuel ih =>
    intro b x y
    simp only [revealAux]
    cases hgd : revealGuard b x y with
    | true =>
      simp only [if_pos rfl]
      exact boardStep_refl b
    | false =>
      simp only [Bool.false_eq_true, if_false]
      have h1 : boardStep b (setRevealed b x y) :=
        boardStep_setRevealed b x y (revealGuard_false hgd).2
      by_cases hz : ((cellAt (setRevealed b x y) x y).map
          (fun c => c.adjacentMines == 0 && !c.isMine)).getD false = true
      · rw [if_pos hz]
        exact boardStep_trans h1 (boardStep_foldl (fun acc d => ih acc _ _) offsets8 _)
      · rw [if_neg hz]
        exact h1

theorem boardStep_revealCell (b : Board) (x y : Int) : boardStep b (revealCell b x y) := by
  unfold revealCell
  cases hgd : revealGuard b x y with
  | true =>
    simp only [if_pos rfl]
    exact boardStep_refl b
  | false =>
    simp only [Bool.false_eq_true, if_false]
    exact boardStep_revealAux (totalCells b + 1) b x y

/-- Frame fact used by C6: a reveal never changes any mine flag. -/
theorem revealCell_isMine (b : Board) (x y px py : Int) :
    (cellAt (revealCell b x y) px py).map Cell.isMine = (cellAt b px py).map Cell.isMine :=
  boardStep_isMine (boardStep_revealCell b x y) px py

/-! ### C6: FIRST_REVEAL degradation -/

/-- The `CELL_ACTION_TYPES` discriminator. -/
inductive CellActionType where
  | reveal
  | flag
  | firstReveal
deriving DecidableEq, Repr

/-- A cell action `{action, x, y, board?}`; `FIRST_REVEAL` carries the
sender's full board blueprint. -/
structure CellAction where
  action : CellActionType
  x : Int
  y : Int
  board : Option BoardBlueprint
deriving DecidableEq, Repr

/-- Modelled from the spec: `applyCellAction` is imported by the
Minesweeper component from the board-logic module, but the copy of
`minesweeperLogic.js` in the sources predates it and does not define it.
Per the spec, a `REVEAL` action replays `revealCell`, a `FLAG` action
replays `toggleFlag`, and a `FIRST_REVEAL` action applies the carried
blueprint (the mine layout chosen by the first clicker) and reports that
mines are now placed. -/
def applyCellAction (b : Board) (a : CellAction) : Board × Bool :=
  match a.action with
  | CellActionType.reveal => (revealCell b a.x a.y, false)
  | CellActionType.flag => (toggleFlag b a.x a.y, false)
  | CellActionType.firstReveal =>
    (match a.board with
      | some bp => applyBoardBlueprint b bp
      | none => b,
     true)

/-- The body of the pending-actions loop of the Minesweeper component
(`part_002`, lines 909-921): an incoming `FIRST_REVEAL` is degraded to a
plain `revealCell` at its coordinates when mines are already placed
locally; otherwise the action goes through `applyCellAction` and may mark
mines as placed. -/
def processPendingAction (minesPlaced : Bool) (b : Board) (a : CellAction) : Board × Bool :=
  if a.action = CellActionType.firstReveal ∧ minesPlaced = true then
    (revealCell b a.x a.y, minesPlaced)
  else
    ((applyCellAction b a).1, minesPlaced || (applyCellAction b a).2)

/-- C6: a node that has already placed mines locally processes an
incoming `FIRST_REVEAL` as a plain reveal at `(x, y)`; the blueprint the
action carries is not applied, and every cell's mine flag is exactly what
it was before. -/
theorem claim_C6_firstReveal_degraded (b : Board) (a : CellAction)
    (h : a.action = CellActionType.firstReveal) :
    processPendingAction true b a = (revealCell b a.x a.y, true)
    ∧ ∀ px py : Int,
        (cellAt (processPendingAction true b a).1 px py).map Cell.isMine
          = (cellAt b px py).map Cell.isMine := by
  have hproc : processPendingAction true b a = (revealCell b a.x a.y, true) := by
    unfold processPendingAction
    rw [if_pos ⟨h, rfl⟩]
  refine ⟨hproc, ?_⟩
  intro px py
  rw [hproc]
  exact revealCell_isMine b a.x a.y px py

/-- C6 witness: concrete action carrying a blueprint full of mines; the
board keeps its mine-free layout. -/
theorem claim_C6_firstReveal_degraded_witness :
    (cellAt (processPendingAction true (createEmptyBoard 2 2)
        { action := CellActionType.firstReveal, x := 0, y := 0,
          board := some [[{ status := CellStatus.hidden, isMine := some true,
                            adjacentMines := 0 }]] }).1 0 0).map Cell.isMine
      = (cellAt (createEmptyBoard 2 2) 0 0).map Cell.isMine :=
  (claim_C6_firstReveal_degraded (createEmptyBoard 2 2)
    { action := CellActionType.firstReveal, x := 0, y := 0,
      board := some [[{ status := CellStatus.hidden, isMine := some true,
                        adjacentMines := 0 }]] } rfl).2 0 0

/-! ### C1: mine placement -/

/-- Number of cells with `isMine = true`. -/
def mineCount (b : Board) : Nat :=
  (b.map (fun row => row.countP (fun c => c.isMine))).sum

/-- Spec-side count of mines among the existing 8-neighbours of a cell. -/
def neighborMineCount (b : Board) (x y : Int) : Nat :=
  offsets8.countP (fun d => ((cellAt b (x + d.1) (y + d.2)).map Cell.isMine).getD false)

theorem countP_listModify {p : α → Bool} (f : α → α) (l : List α) (n : Nat) {a : α}
    (ha : l[n]? = some a) :
    (listModify f l n).countP p + (if p a then 1 else 0)
      = l.countP p + (if p (f a) then 1 else 0) := by
  induction l generalizing n with
  | nil => simp at ha
  | cons b bs ih =>
    cases n with
    | zero =>
      simp only [List.getElem?_cons_zero, Option.some.injEq] at ha
      subst ha
      simp only [listModify, List.countP_cons]
      omega
    | succ n =>
      simp only [List.getElem?_cons_succ] at ha
      show (b :: listModify f bs n).countP p + _ = (b :: bs).countP p + _
      simp only [List.countP_cons]
      have := ih n ha
      omega

theorem sum_map_listModify (g : α → Nat) (f : α → α) (l : List α) (n : Nat) {a : α}
    (ha : l[n]? = some a) :
    ((listModify f l n).map g).sum + g a = (l.map g).sum + g (f a) := by
  induction l generalizing n with
  | nil => simp at ha
  | cons b bs ih =>
    cases n with
    | zero =>
      simp only [List.getElem?_cons_zero, Option.some.injEq] at ha
      subst ha
      simp only [listModify, List.map_cons, List.sum_cons]
      omega
    | succ n =>
      simp only [List.getElem?_cons_succ] at ha
      show ((b :: listModify f bs n).map g).sum + g a = ((b :: bs).map g).sum + g (f a)
      simp only [List.map_cons, List.sum_cons]
      have := ih n ha
      omega

theorem mineCount_set_mine {b : Board} {x y : Nat} {c : Cell}
    (hc : cellAtN b x y = some c) (hm : c.isMine = false) :
    mineCount (modifyCell b x y (fun cell => { cell with isMine := true })) = mineCount b + 1 := by
  unfold cellAtN at hc
  cases hrow : b[y]? with
  | none =>
    rw [hrow] at hc
    cases hc
  | some row =>
    rw [hrow] at hc
    simp only [Option.some_bind] at hc
    unfold mineCount modifyCell
    have h1 := sum_map_listModify (fun r => r.countP (fun cl => cl.isMine))
      (fun r => listModify (fun cell => { cell with isMine := true }) r x) b y hrow
    have h2 := countP_listModify (p := fun cl => cl.isMine)
      (fun cell => { cell with isMine := true }) row x hc
    simp only [hm] at h2
    norm_num at h1 h2
    omega

theorem modifyCell_row_lengths (b : Board) (x y : Nat) (f : Cell → Cell) (i : Nat) :
    ((modifyCell b x y f)[i]?).map List.length = (b[i]?).map List.length := by
  unfold modifyCell
  rw [getElem?_listModify]
  by_cases hy : y = i
  · rw [if_pos hy]
    cases b[i]? with
    | none => rfl
    | some row => simp [length_listModify]
  · rw [if_neg hy]

/-- Combined invariant of the mine-placement loop: on success the mine
count grows by exactly the number of requested mines, every new mine sits
outside the safe zone, and the board shape is unchanged. -/
theorem placeMinesAux_spec (fx fy : Nat) (rands : List (Nat × Nat)) :
    ∀ (b : Board) (n : Nat) (b2 : Board), placeMinesAux fx fy rands b n = some b2 →
      mineCount b2 = mineCount b + n
      ∧ (∀ px py c2, cellAtN b2 px py = some c2 → c2.isMine = true →
          (∃ c, cellAtN b px py = some c ∧ c.isMine = true) ∨ isNearFirst fx fy px py = false)
      ∧ b2.length = b.length
      ∧ (∀ i : Nat, (b2[i]?).map List.length = (b[i]?).map List.length) := by
  induction rands with
  | nil =>
    intro b n b2 h
    cases n with
    | zero =>
      simp only [placeMinesAux, Option.some.injEq] at h
      subst h
      exact ⟨by omega, fun px py c2 h2 hm => Or.inl ⟨c2, h2, hm⟩, rfl, fun i => rfl⟩
    | succ n => simp [placeMinesAux] at h
  | cons p rest ih =>
    intro b n b2 h
    obtain ⟨x, y⟩ := p
    cases n with
    | zero =>
      simp only [placeMinesAux, Option.some.injEq] at h
      subst h
      exact ⟨by omega, fun px py c2 h2 hm => Or.inl ⟨c2, h2, hm⟩, rfl, fun i => rfl⟩
    | succ n =>
      simp only [placeMinesAux] at h
      cases hcell : cellAtN b x y with
      | none => simp [hcell] at h
      | some c =>
        rw [hcell] at h
        simp only at h
        by_cases hplace : (!c.isMine && !isNearFirst fx fy x y) = true
        · rw [if_pos hplace] at h
          simp only [Bool.and_eq_true, Bool.not_eq_true'] at hplace
          obtain ⟨hm, hnear⟩ := hplace
          obtain ⟨ihm, ihs, ihl, ihrl⟩ := ih _ _ _ h
          refine ⟨?_, ?_, ?_, ?_⟩
          · rw [ihm, mineCount_set_mine hcell hm]
            omega
          · intro px py c2 h2 hmine2
            rcases ihs px py c2 h2 hmine2 with ⟨cm, hcm, hcmine⟩ | hnear2
            · rw [cellAtN_modifyCell] at hcm
              by_cases heq : x = px ∧ y = py
              · obtain ⟨he1, he2⟩ := heq
                subst he1
                subst he2
                right
                exact hnear
              · rw [if_neg heq] at hcm
                exact Or.inl ⟨cm, hcm, hcmine⟩
            · exact Or.inr hnear2
          · rw [ihl]
            unfold modifyCell
            exact length_listModify _ _ _
          · intro i
            rw [ihrl i, modifyCell_row_lengths]
        · rw [if_neg hplace] at h
          exact ih _ _ _ h

theorem countP_mapIdxFrom {p : α → Bool} (f : Nat → α → α) (hp : ∀ j a, p (f j a) = p a) :
    ∀ (i : Nat) (l : List α), (mapIdxFrom f i l).countP p = l.countP p := by
  intro i l
  induction l generalizing i with
  | nil => rfl
  | cons a as ih => simp [mapIdxFrom, List.countP_cons, hp, ih]

theorem sum_map_mapIdxFrom (g : α → Nat) (f : Nat → α → α) (hg : ∀ j a, g (f j a) = g a) :
    ∀ (i : Nat) (l : List α), ((mapIdxFrom f i l).map g).sum = (l.map g).sum := by
  intro i l
  induction l generalizing i with
  | nil => rfl
  | cons a as ih => simp [mapIdxFrom, hg, ih]

theorem cellAtN_recomputeAdjacents (b : Board) (x y : Nat) :
    cellAtN (recomputeAdjacents b) x y = (cellAtN b x y).map
      (fun c => if c.isMine then c
        else { c with adjacentMines := countAdjacentMines b x y }) := by
  unfold cellAtN recomputeAdjacents
  rw [getElem?_mapIdxFrom]
  cases hrow : b[y]? with
  | none => rfl
  | some row =>
    simp only [Nat.zero_add, Option.map_some', Option.some_bind]
    rw [getElem?_mapIdxFrom]
    cases row[x]? with
    | none => rfl
    | some c => simp

theorem length_recomputeAdjacents (b : Board) :
    (recomputeAdjacents b).length = b.length :=
  length_mapIdxFrom _ _ _

theorem rowLengths_recomputeAdjacents (b : Board) (i : Nat) :
    ((recomputeAdjacents b)[i]?).map List.length = (b[i]?).map List.length := by
  unfold recomputeAdjacents
  rw [getElem?_mapIdxFrom]
  cases b[i]? with
  | none => rfl
  | some row => simp [length_mapIdxFrom]

theorem boardWidth_recomputeAdjacents (b : Board) :
    boardWidth (recomputeAdjacents b) = boardWidth b := by
  cases b with
  | nil => rfl
  | cons row rest =>
    show boardWidth (mapIdxFrom _ 0 (row :: rest)) = _
    unfold boardWidth
    simp [mapIdxFrom, length_mapIdxFrom]

theorem isMine_cellAtN_recomputeAdjacents (b : Board) (x y : Nat) :
    (cellAtN (recomputeAdjacents b) x y).map Cell.isMine
      = (cellAtN b x y).map Cell.isMine := by
  rw [cellAtN_recomputeAdjacents]
  cases cellAtN b x y with
  | none => rfl
  | some c =>
    by_cases hm : c.isMine = true <;> simp [hm]

theorem isMine_cellAt_recomputeAdjacents (b : Board) (x y : Int) :
    (cellAt (recomputeAdjacents b) x y).map Cell.isMine
      = (cellAt b x y).map Cell.isMine := by
  unfold cellAt
  by_cases hxy : 0 ≤ x ∧ 0 ≤ y
  · rw [if_pos hxy, if_pos hxy]
    exact isMine_cellAtN_recomputeAdjacents b x.toNat y.toNat
  · rw [if_neg hxy, if_neg hxy]

theorem isValidCell_recomputeAdjacents (b : Board) (x y : Int) :
    isValidCell (recomputeAdjacents b) x y = isValidCell b x y := by
  unfold isValidCell
  rw [length_recomputeAdjacents, boardWidth_recomputeAdjacents]

theorem mineAt_recomputeAdjacents (b : Board) (x y : Int) :
    mineAt (recomputeAdjacents b) x y = mineAt b x y := by
  unfold mineAt
  rw [isValidCell_recomputeAdjacents, isMine_cellAt_recomputeAdjacents]

theorem countAdjacentMines_recomputeAdjacents (b : Board) (x y : Int) :
    countAdjacentMines (recomputeAdjacents b) x y = countAdjacentMines b x y := by
  unfold countAdjacentMines
  apply List.countP_congr
  intro d _
  simp [mineAt_recomputeAdjacents]

theorem mineCount_recomputeAdjacents (b : Board) :
    mineCount (recomputeAdjacents b) = mineCount b := by
  unfold mineCount recomputeAdjacents
  apply sum_map_mapIdxFrom
  intro j row
  apply countP_mapIdxFrom
  intro i c
  by_cases hm : c.isMine = true <;> simp [hm]

theorem rect_of_shape {b b2 : Board} {w h : Nat} (hr : Rect b w h)
    (hl : b2.length = b.length)
    (hrl : ∀ i : Nat, (b2[i]?).map List.length = (b[i]?).map List.length) :
    Rect b2 w h := by
  constructor
  · rw [hl]
    exact hr.1
  · intro row hrow
    obtain ⟨i, hi⟩ := List.getElem?_of_mem hrow
    have hh := hrl i
    rw [hi] at hh
    cases hb : b[i]? with
    | none =>
      rw [hb] at hh
      simp at hh
    | some row0 =>
      rw [hb] at hh
      simp only [Option.map_some', Option.some.injEq] at hh
      rw [hh]
      apply hr.2
      obtain ⟨hlt, hget⟩ := List.getElem?_eq_some.mp hb
      rw [← hget]
      exact List.getElem_mem hlt

theorem rect_boardWidth {b : Board} {w h : Nat} (hr : Rect b w h) (hpos : 0 < b.length) :
    boardWidth b = w := by
  cases b with
  | nil => simp at hpos
  | cons row rest =>
    unfold boardWidth
    simp only [List.headD_cons]
    exact hr.2 row (List.mem_cons_self _ _)

theorem rect_cellAt_isSome {b : Board} {w h : Nat} (hr : Rect b w h) (x y : Int) :
    (∃ c, cellAt b x y = some c) ↔ isValidCell b x y = true := by
  constructor
  · rintro ⟨c, hc⟩
    unfold cellAt at hc
    by_cases hxy : 0 ≤ x ∧ 0 ≤ y
    · rw [if_pos hxy] at hc
      unfold cellAtN at hc
      cases hrow : b[y.toNat]? with
      | none =>
        rw [hrow] at hc
        cases hc
      | some row =>
        rw [hrow] at hc
        simp only [Option.some_bind] at hc
        obtain ⟨hylt, hyget⟩ := List.getElem?_eq_some.mp hrow
        obtain ⟨hxlt, _⟩ := List.getElem?_eq_some.mp hc
        have hrowmem : row ∈ b := by
          rw [← hyget]
          exact List.getElem_mem hylt
        have hroww : row.length = w := hr.2 row hrowmem
        have hwidth : boardWidth b = w := rect_boardWidth hr (by omega)
        unfold isValidCell
        rw [hwidth]
        simp only [Bool.and_eq_true, decide_eq_true_eq]
        refine ⟨⟨⟨hxy.2, by omega⟩, hxy.1⟩, by omega⟩
    · rw [if_neg hxy] at hc
      cases hc
  · intro hv
    unfold isValidCell at hv
    simp only [Bool.and_eq_true, decide_eq_true_eq] at hv
    obtain ⟨⟨⟨hy0, hylt⟩, hx0⟩, hxlt⟩ := hv
    have hbpos : 0 < b.length := by omega
    have hwidth : boardWidth b = w := rect_boardWidth hr hbpos
    rw [hwidth] at hxlt
    have hylt2 : y.toNat < b.length := by omega
    unfold cellAt cellAtN
    rw [if_pos ⟨hx0, hy0⟩]
    rw [List.getElem?_eq_getElem hylt2]
    simp only [Option.some_bind]
    have hroww : b[y.toNat].length = w := hr.2 _ (List.getElem_mem hylt2)
    have hxlt2 : x.toNat < b[y.toNat].length := by omega
    exact ⟨_, List.getElem?_eq_getElem hxlt2⟩

theorem rect_mineAt_eq {b : Board} {w h : Nat} (hr : Rect b w h) (x y : Int) :
    mineAt b x y = ((cellAt b x y).map Cell.isMine).getD false := by
  unfold mineAt
  cases hv : isValidCell b x y with
  | true => simp
  | false =>
    have hnone : cellAt b x y = none := by
      cases hc : cellAt b x y with
      | none => rfl
      | some c =>
        have := (rect_cellAt_isSome hr x y).mp ⟨c, hc⟩
        rw [hv] at this
        cases this
    rw [hnone]
    simp

theorem countP_offsets3x3 (q : Int × Int → Bool) :
    offsets3x3.countP q = offsets8.countP q + (if q (0, 0) then 1 else 0) := by
  simp only [offsets3x3, offsets8, List.countP_cons, List.countP_nil]
  omega

theorem countAdjacent_eq_neighbor {b : Board} {w h : Nat} (hr : Rect b w h) (x y : Int)
    (c : Cell) (hc : cellAt b x y = some c) (hm : c.isMine = false) :
    countAdjacentMines b x y = neighborMineCount b x y := by
  unfold countAdjacentMines neighborMineCount
  have hcongr : ∀ d ∈ offsets3x3, (mineAt b (x + d.1) (y + d.2) = true) ↔
      ((((cellAt b (x + d.1) (y + d.2)).map Cell.isMine).getD false) = true) := by
    intro d _
    rw [rect_mineAt_eq hr]
  rw [List.countP_congr hcongr]
  rw [countP_offsets3x3 (fun d => ((cellAt b (x + d.1) (y + d.2)).map Cell.isMine).getD false)]
  simp [hc, hm]

theorem mineCount_zero {b : Board} (h : mineCount b = 0) (x y : Nat) (c : Cell)
    (hc : cellAtN b x y = some c) : c.isMine = false := by
  unfold mineCount at h
  unfold cellAtN at hc
  cases hrow : b[y]? with
  | none =>
    rw [hrow] at hc
    cases hc
  | some row =>
    rw [hrow] at hc
    simp only [Option.some_bind] at hc
    obtain ⟨hylt, hyget⟩ := List.getElem?_eq_some.mp hrow
    obtain ⟨hxlt, hxget⟩ := List.getElem?_eq_some.mp hc
    have hrowmem : row ∈ b := by
      rw [← hyget]
      exact List.getElem_mem hylt
    have hcmem : c ∈ row := by
      rw [← hxget]
      exact List.getElem_mem hxlt
    have hall : ∀ v ∈ b.map (fun row => row.countP (fun cl => cl.isMine)), v = 0 := by
      intro v hv
      have hle : v ≤ (b.map (fun row => row.countP (fun cl => cl.isMine))).sum :=
        List.single_le_sum (fun _ _ => Nat.zero_le _) v hv
      omega
    have hrow0 : row.countP (fun cl => cl.isMine) = 0 :=
      hall _ (List.mem_map_of_mem _ hrowmem)
    rw [List.countP_eq_zero] at hrow0
    have := hrow0 c hcmem
    cases hb : c.isMine with
    | false => rfl
    | true => exact absurd hb this

theorem cellAt_natCast (b : Board) (x y : Nat) :
    cellAt b (x : Int) (y : Int) = cellAtN b x y := by
  unfold cellAt
  rw [if_pos ⟨Int.natCast_nonneg x, Int.natCast_nonneg y⟩]
  simp

/-- C1: from a mine-free rectangular board, every successful run of
`placeMines` yields exactly `mines` mine cells, none of them in the 3x3
safe zone around the first click, and every non-mine cell carries the
exact count of mines among its existing 8-neighbours. -/
theorem claim_C1_placeMines_spec (rands : List (Nat × Nat)) (b : Board)
    (w h mines fx fy : Nat) (bOut : Board)
    (hrect : Rect b w h) (hnomine : mineCount b = 0)
    (hres : placeMines rands b mines fx fy = some bOut) :
    mineCount bOut = mines
    ∧ (∀ px py : Nat, isNearFirst fx fy px py = true →
        ∀ c, cellAtN bOut px py = some c → c.isMine = false)
    ∧ (∀ px py : Nat, ∀ c, cellAtN bOut px py = some c → c.isMine = false →
        c.adjacentMines = neighborMineCount bOut px py) := by
  unfold placeMines at hres
  cases haux : placeMinesAux fx fy rands b mines with
  | none =>
    rw [haux] at hres
    cases hres
  | some b2 =>
    rw [haux] at hres
    simp only [Option.map_some', Option.some.injEq] at hres
    subst hres
    obtain ⟨ham, hsafe, hlen, hrl⟩ := placeMinesAux_spec fx fy rands b mines b2 haux
    have hrect2 : Rect b2 w h := rect_of_shape hrect hlen hrl
    have hrectOut : Rect (recomputeAdjacents b2) w h :=
      rect_of_shape hrect2 (length_recomputeAdjacents b2) (rowLengths_recomputeAdjacents b2)
    refine ⟨?_, ?_, ?_⟩
    · rw [mineCount_recomputeAdjacents, ham, hnomine]
      exact Nat.zero_add mines
    · intro px py hnear c hcell
      have hmi := isMine_cellAtN_recomputeAdjacents b2 px py
      rw [hcell] at hmi
      cases hcell2 : cellAtN b2 px py with
      | none =>
        rw [hcell2] at hmi
        simp at hmi
      | some c2 =>
        rw [hcell2] at hmi
        simp only [Option.map_some', Option.some.injEq] at hmi
        cases hb : c.isMine with
        | false => rfl
        | true =>
          have hc2 : c2.isMine = true := by
            rw [← hmi, hb]
          rcases hsafe px py c2 hcell2 hc2 with ⟨c0, hc0, hc0m⟩ | hnear2
          · rw [mineCount_zero hnomine px py c0 hc0] at hc0m
            cases hc0m
          · rw [hnear] at hnear2
            cases hnear2
    · intro px py c hcell hm
      have hcell0 := hcell
      rw [cellAtN_recomputeAdjacents] at hcell
      cases hcell2 : cellAtN b2 px py with
      | none =>
        rw [hcell2] at hcell
        cases hcell
      | some c2 =>
        rw [hcell2] at hcell
        simp only [Option.map_some', Option.some.injEq] at hcell
        by_cases hm2 : c2.isMine = true
        · rw [if_pos hm2] at hcell
          rw [← hcell] at hm
          rw [hm2] at hm
          cases hm
        · rw [if_neg hm2] at hcell
          have hadj : c.adjacentMines = countAdjacentMines b2 px py := by
            rw [← hcell]
          rw [hadj, ← countAdjacentMines_recomputeAdjacents b2 px py]
          have hcellI : cellAt (recomputeAdjacents b2) (px : Int) (py : Int) = some c := by
            rw [cellAt_natCast]
            exact hcell0
          exact countAdjacent_eq_neighbor hrectOut (px : Int) (py : Int) c hcellI hm

/-- C1 witness: a 4x4 empty board, one mine drawn at `(3, 3)`, first click
at `(0, 0)`. -/
theorem claim_C1_placeMines_spec_witness :
    mineCount ((placeMines [(3, 3)] (createEmptyBoard 4 4) 1 0 0).getD []) = 1 :=
  (claim_C1_placeMines_spec [(3, 3)] (createEmptyBoard 4 4) 4 4 1 0 0
    ((placeMines [(3, 3)] (createEmptyBoard 4 4) 1 0 0).getD [])
    (by unfold Rect; exact ⟨by decide, by decide⟩)
    (by decide) (by decide)).1

/-! ### C4: infeasible mine counts

The source `placeMines` performs no feasibility validation and raises no
error: with an infeasible count its `while` loop can never finish, which
in the supply-driven embedding shows up as `none` for every finite random
supply. -/

/-- All `(x, y)` grid positions of a `w` by `h` board. -/
def gridPositions (w h : Nat) : List (Nat × Nat) :=
  ((List.range h).map (fun y => (List.range w).map (fun x => (x, y)))).flatten

/-- Number of grid cells inside the 3x3 safe zone around `(fx, fy)`. -/
def safeZoneSize (w h fx fy : Nat) : Nat :=
  (gridPositions w h).countP (fun p => isNearFirst fx fy p.1 p.2)

/-- Mine test at natural coordinates (false off the board). -/
def mineAtN (b : Board) (x y : Nat) : Bool :=
  ((cellAtN b x y).map Cell.isMine).getD false

/-- Number of cells still eligible for a mine: mine-free and outside the
safe zone. -/
def freeCount (w h fx fy : Nat) (b : Board) : Nat :=
  (gridPositions w h).countP (fun p => !mineAtN b p.1 p.2 && !isNearFirst fx fy p.1 p.2)

theorem mem_gridPositions {w h x y : Nat} :
    (x, y) ∈ gridPositions w h ↔ x < w ∧ y < h := by
  unfold gridPositions
  rw [List.mem_flatten]
  constructor
  · rintro ⟨l, hl, hmem⟩
    rw [List.mem_map] at hl
    obtain ⟨y1, hy1, rfl⟩ := hl
    rw [List.mem_map] at hmem
    obtain ⟨x1, hx1, heq⟩ := hmem
    have hx : x1 = x := congrArg Prod.fst heq
    have hy : y1 = y := congrArg Prod.snd heq
    subst hx
    subst hy
    exact ⟨List.mem_range.mp hx1, List.mem_range.mp hy1⟩
  · rintro ⟨hx, hy⟩
    refine ⟨(List.range w).map (fun x => (x, y)), ?_, ?_⟩
    · exact List.mem_map_of_mem _ (List.mem_range.mpr hy)
    · exact List.mem_map_of_mem _ (List.mem_range.mpr hx)

theorem nodup_gridPositions (w h : Nat) : (gridPositions w h).Nodup := by
  unfold gridPositions
  rw [List.nodup_flatten]
  constructor
  · intro l hl
    rw [List.mem_map] at hl
    obtain ⟨y1, _, rfl⟩ := hl
    refine List.Nodup.map ?_ (List.nodup_range w)
    intro a b hab
    exact congrArg Prod.fst hab
  · rw [List.pairwise_map]
    have hp : List.Pairwise (fun a b => a < b) (List.range h) := List.pairwise_lt_range h
    refine hp.imp ?_
    intro y1 y2 hlt a ha1 ha2
    rw [List.mem_map] at ha1 ha2
    obtain ⟨x1, _, rfl⟩ := ha1
    obtain ⟨x2, _, heq⟩ := ha2
    have : y2 = y1 := congrArg Prod.snd heq
    omega

theorem sum_map_const_nat (l : List α) (k : Nat) : (l.map (fun _ => k)).sum = l.length * k := by
  induction l with
  | nil => simp
  | cons a as ih =>
    simp only [List.map_cons, List.sum_cons, List.length_cons, ih]
    ring

theorem length_gridPositions (w h : Nat) : (gridPositions w h).length = h * w := by
  unfold gridPositions
  rw [List.length_flatten, List.map_map]
  have : (List.map (List.length ∘ fun y => (List.range w).map (fun x => (x, y)))
      (List.range h)) = (List.range h).map (fun _ => w) := by
    apply List.map_congr_left
    intro y _
    simp
  rw [this, sum_map_const_nat, List.length_range]

theorem countP_flip [DecidableEq α] {l : List α} {p q : α → Bool} {a : α}
    (hcount : l.count a = 1)
    (hsame : ∀ b ∈ l, b ≠ a → q b = p b) (hpa : p a = false) (hqa : q a = true) :
    l.countP q = l.countP p + 1 := by
  induction l with
  | nil => simp at hcount
  | cons b bs ih =>
    by_cases hb : b = a
    · subst hb
      rw [List.count_cons_self] at hcount
      have hnotmem : b ∉ bs := List.count_eq_zero.mp (by omega)
      have hcongr : bs.countP q = bs.countP p := by
        apply List.countP_congr
        intro x hx
        rw [hsame x (List.mem_cons_of_mem _ hx) (fun he => hnotmem (he ▸ hx))]
      simp [List.countP_cons, hpa, hqa, hcongr]
    · have hab : a ≠ b := fun he => hb he.symm
      rw [List.count_cons_of_ne hab] at hcount
      have hqb : q b = p b := hsame b (List.mem_cons_self _ _) hb
      simp only [List.countP_cons, hqb]
      have := ih hcount (fun x hx hne => hsame x (List.mem_cons_of_mem _ hx) hne)
      omega

theorem cellAtN_bounds {b : Board} {w h x y : Nat} {c : Cell}
    (hrect : Rect b w h) (hc : cellAtN b x y = some c) : x < w ∧ y < h := by
  unfold cellAtN at hc
  cases hrow : b[y]? with
  | none =>
    rw [hrow] at hc
    cases hc
  | some row =>
    rw [hrow] at hc
    simp only [Option.some_bind] at hc
    obtain ⟨hylt, hyget⟩ := List.getElem?_eq_some.mp hrow
    obtain ⟨hxlt, _⟩ := List.getElem?_eq_some.mp hc
    have hrowmem : row ∈ b := by
      rw [← hyget]
      exact List.getElem_mem hylt
    have := hrect.2 row hrowmem
    have := hrect.1
    omega

theorem freeCount_set_mine {w h fx fy : Nat} {b : Board} {x y : Nat} {c : Cell}
    (hrect : Rect b w h) (hc : cellAtN b x y = some c) (hm : c.isMine = false)
    (hnear : isNearFirst fx fy x y = false) :
    freeCount w h fx fy b
      = freeCount w h fx fy
          (modifyCell b x y (fun cell => { cell with isMine := true })) + 1 := by
  unfold freeCount
  apply countP_flip (a := (x, y))
  · obtain ⟨hx, hy⟩ := cellAtN_bounds hrect hc
    exact List.count_eq_one_of_mem (nodup_gridPositions w h) (mem_gridPositions.mpr ⟨hx, hy⟩)
  · intro p _ hne
    have hmm : mineAtN (modifyCell b x y (fun cell => { cell with isMine := true })) p.1 p.2
        = mineAtN b p.1 p.2 := by
      unfold mineAtN
      rw [cellAtN_modifyCell]
      rw [if_neg]
      intro hcon
      apply hne
      have hp : p = (p.1, p.2) := rfl
      rw [hp, ← hcon.1, ← hcon.2]
    rw [hmm]
  · unfold mineAtN
    rw [cellAtN_modifyCell, if_pos ⟨rfl, rfl⟩, hc]
    simp
  · unfold mineAtN
    rw [hc]
    simp [hm, hnear]

/-- Rect is preserved by a single-cell modification. -/
theorem rect_modifyCell {b : Board} {w h : Nat} (hrect : Rect b w h) (x y : Nat)
    (f : Cell → Cell) : Rect (modifyCell b x y f) w h := by
  refine rect_of_shape hrect ?_ (fun i => modifyCell_row_lengths b x y f i)
  unfold modifyCell
  exact length_listModify _ _ _

/-- With fewer eligible cells than mines still to place, the placement
loop can never succeed: every finite random supply ends in `none`. -/
theorem placeMinesAux_infeasible {w h fx fy : Nat} (rands : List (Nat × Nat)) :
    ∀ (b : Board) (n : Nat), Rect b w h → freeCount w h fx fy b < n →
      placeMinesAux fx fy rands b n = none := by
  induction rands with
  | nil =>
    intro b n hrect hlt
    cases n with
    | zero => omega
    | succ n => rfl
  | cons q rest ih =>
    intro b n hrect hlt
    obtain ⟨x, y⟩ := q
    cases n with
    | zero => omega
    | succ n =>
      simp only [placeMinesAux]
      cases hcell : cellAtN b x y with
      | none => rfl
      | some c =>
        simp only
        by_cases hplace : (!c.isMine && !isNearFirst fx fy x y) = true
        · rw [if_pos hplace]
          simp only [Bool.and_eq_true, Bool.not_eq_true'] at hplace
          obtain ⟨hm, hnear⟩ := hplace
          apply ih
          · exact rect_modifyCell hrect x y _
          · have := @freeCount_set_mine w h fx fy b x y c hrect hcell hm hnear
            omega
        · rw [if_neg hplace]
          exact ih b (n + 1) hrect (by omega)

/-- C4 counterexample: a concrete infeasible call (2x2 board, one mine,
safe zone covering the whole board).  `placeMines` does not fail with any
error — its result type has no error case because the source raises
none — and it cannot succeed either: the supplied draws (every cell of
the board) are all rejected and the loop keeps spinning (`none`). -/
theorem claim_C4_counterexample :
    placeMines [(0, 0), (1, 0), (0, 1), (1, 1)] (createEmptyBoard 2 2) 1 0 0 = none
    ∧ 2 * 2 - safeZoneSize 2 2 0 0 < 1 := by
  constructor
  · decide
  · decide

/-- C4 amended: `placeMines` has no feasibility check and no
`InfeasibleMineCount` error; whenever the requested count exceeds
`width*height` minus the safe-zone size (on a mine-free rectangular
board), it never returns a board — the placement loop rejects every draw
of every finite random supply. -/
theorem claim_C4_amended (rands : List (Nat × Nat)) (b : Board) (w h mines fx fy : Nat)
    (hrect : Rect b w h) (hnomine : mineCount b = 0)
    (hinf : w * h - safeZoneSize w h fx fy < mines) :
    placeMines rands b mines fx fy = none := by
  unfold placeMines
  have hfree : freeCount w h fx fy b < mines := by
    have h1 : freeCount w h fx fy b
        = (gridPositions w h).countP (fun p => !isNearFirst fx fy p.1 p.2) := by
      unfold freeCount
      apply List.countP_congr
      intro p _
      have hmine : mineAtN b p.1 p.2 = false := by
        unfold mineAtN
        cases hc : cellAtN b p.1 p.2 with
        | none => rfl
        | some c => simp [mineCount_zero hnomine _ _ _ hc]
      rw [hmine]
      simp
    have h2 := List.length_eq_countP_add_countP
      (fun p => isNearFirst fx fy p.1 p.2) (gridPositions w h)
    have h3 : (gridPositions w h).countP
          (fun p => decide ¬(isNearFirst fx fy p.1 p.2 = true))
        = (gridPositions w h).countP (fun p => !isNearFirst fx fy p.1 p.2) := by
      apply List.countP_congr
      intro p _
      simp
    have h4 := length_gridPositions w h
    unfold safeZoneSize at hinf
    have hwh : h * w = w * h := Nat.mul_comm h w
    omega
  rw [placeMinesAux_infeasible rands b mines hrect hfree]
  rfl

/-- C4 amended witness: concrete infeasible instance. -/
theorem claim_C4_amended_witness :
    placeMines [(0, 1), (1, 1)] (createEmptyBoard 2 2) 1 0 0 = none :=
  claim_C4_amended [(0, 1), (1, 1)] (createEmptyBoard 2 2) 2 2 1 0 0
    (by unfold Rect; exact ⟨by decide, by decide⟩) (by decide) (by decide)

/-! ### C2: the reveal flood fill

`Reach b x y px py` is the spec-side reachability used to state flood-fill
completeness: starting from the clicked cell, traversal proceeds through
hidden, zero-adjacency, non-mine cells (the cells the recursive `reveal`
expands — already-revealed or flagged cells are no-ops per the reveal
rules) and may end one step beyond them, on any hidden in-bounds cell:
the region's border.  The claim theorem shows the set of revealed cells
after `revealCell b x y` is exactly the previously revealed cells plus
the `Reach`-able ones. -/

/-- A cell the inner `reveal` would newly reveal: in bounds and hidden. -/
def revealableP (b : Board) (x y : Int) : Prop :=
  isValidCell b x y = true ∧ statusAt b x y = some CellStatus.hidden

/-- A cell the flood fill expands through: revealable, zero adjacency,
not a mine. -/
def expandableP (b : Board) (x y : Int) : Prop :=
  revealableP b x y ∧ ∃ c, cellAt b x y = some c ∧ c.adjacentMines = 0 ∧ c.isMine = false

/-- Reachability of the flood fill started at `(sx, sy)`. -/
inductive Reach (b : Board) (sx sy : Int) : Int → Int → Prop where
  | start : revealableP b sx sy → Reach b sx sy sx sy
  | step {x y nx ny : Int} : Reach b sx sy x y → expandableP b x y →
      (nx - x, ny - y) ∈ offsets8 → revealableP b nx ny → Reach b sx sy nx ny

/-- Number of cells that are not revealed (the termination measure of the
source recursion). -/
def nonRevealedCount (b : Board) : Nat :=
  (b.map (fun row => row.countP (fun c => !decide (c.status = CellStatus.revealed)))).sum

theorem revealGuard_false_of_revealable {b : Board} {x y : Int} (h : revealableP b x y) :
    revealGuard b x y = false := by
  obtain ⟨hv, hs⟩ := h
  unfold revealGuard
  rw [hv, hs]
  simp

theorem setRevealed_eq_self_of_none {b : Board} {x y : Int} (h : cellAt b x y = none) :
    setRevealed b x y = b := by
  unfold setRevealed
  by_cases hxy : 0 ≤ x ∧ 0 ≤ y
  · rw [if_pos hxy]
    unfold cellAt at h
    rw [if_pos hxy] at h
    exact modifyCell_eq_self h
  · rw [if_neg hxy]

theorem cellAt_setRevealed_self {b : Board} {x y : Int} {c : Cell}
    (h : cellAt b x y = some c) :
    cellAt (setRevealed b x y) x y = some { c with status := CellStatus.revealed } := by
  have hxy : 0 ≤ x ∧ 0 ≤ y := by
    by_contra hcon
    unfold cellAt at h
    rw [if_neg hcon] at h
    cases h
  unfold cellAt at h ⊢
  rw [if_pos hxy] at h ⊢
  unfold setRevealed
  rw [if_pos hxy, cellAtN_modifyCell, if_pos ⟨rfl, rfl⟩, h]
  rfl

theorem cellAt_setRevealed_frame {b : Board} {x y px py : Int}
    (hne : ¬(px = x ∧ py = y)) :
    cellAt (setRevealed b x y) px py = cellAt b px py := by
  unfold setRevealed
  by_cases hxy : 0 ≤ x ∧ 0 ≤ y
  · rw [if_pos hxy]
    unfold cellAt
    by_cases hp : 0 ≤ px ∧ 0 ≤ py
    · rw [if_pos hp, if_pos hp, cellAtN_modifyCell, if_neg]
      intro hcon
      apply hne
      constructor
      · omega
      · omega
    · rw [if_neg hp, if_neg hp]
  · rw [if_neg hxy]

theorem statusAt_setRevealed_self {b : Board} {x y : Int} {c : Cell}
    (h : cellAt b x y = some c) :
    statusAt (setRevealed b x y) x y = some CellStatus.revealed := by
  unfold statusAt
  rw [cellAt_setRevealed_self h]
  rfl

theorem offsets8_ne_zero : ∀ d ∈ offsets8, ¬(d.1 = 0 ∧ d.2 = 0) := by decide

theorem boardStep_fields {b b2 : Board} (h : boardStep b b2) {x y : Int} {c : Cell}
    (hc : cellAt b x y = some c) :
    ∃ c2, cellAt b2 x y = some c2 ∧ c2.isMine = c.isMine
      ∧ c2.adjacentMines = c.adjacentMines := by
  rcases boardStep_cellAt h x y with ⟨h1, _⟩ | ⟨c0, d0, h1, h2, hcd⟩
  · rw [h1] at hc
    cases hc
  · rw [h1] at hc
    cases hc
    exact ⟨d0, h2, cellStep_isMine hcd, cellStep_adjacentMines hcd⟩

theorem rowNonRevealed_mono {row row2 : List Cell} (h : List.Forall₂ cellStep row row2) :
    row2.countP (fun c => !decide (c.status = CellStatus.revealed))
      ≤ row.countP (fun c => !decide (c.status = CellStatus.revealed)) := by
  induction h with
  | nil => exact Nat.le_refl 0
  | cons hc hrest ih =>
    simp only [List.countP_cons]
    rcases hc with rfl | ⟨hcs, rfl⟩
    · omega
    · simp only [hcs]
      simp
      omega

theorem nonRevealedCount_mono {b b2 : Board} (h : boardStep b b2) :
    nonRevealedCount b2 ≤ nonRevealedCount b := by
  unfold nonRevealedCount
  induction h with
  | nil => exact Nat.le_refl 0
  | cons hrow hrest ih =>
    simp only [List.map_cons, List.sum_cons]
    have := rowNonRevealed_mono hrow
    omega

theorem nonRevealedCount_setRevealed {b : Board} {x y : Int} {c : Cell}
    (hcell : cellAt b x y = some c) (hs : c.status = CellStatus.hidden) :
    nonRevealedCount b = nonRevealedCount (setRevealed b x y) + 1 := by
  have hxy : 0 ≤ x ∧ 0 ≤ y := by
    by_contra hcon
    unfold cellAt at hcell
    rw [if_neg hcon] at hcell
    cases hcell
  unfold cellAt at hcell
  rw [if_pos hxy] at hcell
  unfold setRevealed
  rw [if_pos hxy]
  unfold cellAtN at hcell
  cases hrow : b[y.toNat]? with
  | none =>
    rw [hrow] at hcell
    cases hcell
  | some row =>
    rw [hrow] at hcell
    simp only [Option.some_bind] at hcell
    unfold nonRevealedCount modifyCell
    have h1 := sum_map_listModify
      (fun r => r.countP (fun cl => !decide (cl.status = CellStatus.revealed)))
      (fun r => listModify (fun cl => { cl with status := CellStatus.revealed }) r x.toNat)
      b y.toNat hrow
    have h2 := countP_listModify (p := fun cl => !decide (cl.status = CellStatus.revealed))
      (fun cl => { cl with status := CellStatus.revealed }) row x.toNat hcell
    simp [hs] at h2
    simp only [] at h1
    omega

theorem nonRevealedCount_le_totalCells (b : Board) : nonRevealedCount b ≤ totalCells b := by
  unfold nonRevealedCount totalCells
  apply List.sum_le_sum
  intro row _
  exact List.countP_le_length _

theorem revealableP_antitone {b b2 : Board} (h : boardStep b b2) {x y : Int}
    (hr : revealableP b2 x y) : revealableP b x y := by
  obtain ⟨hv, hs⟩ := hr
  constructor
  · rw [← boardStep_isValidCell h]
    exact hv
  · exact boardStep_hidden_back h x y hs

theorem expandableP_antitone {b b2 : Board} (h : boardStep b b2) {x y : Int}
    (he : expandableP b2 x y) : expandableP b x y := by
  obtain ⟨hrev, c2, hc2, hadj, hm⟩ := he
  refine ⟨revealableP_antitone h hrev, ?_⟩
  rcases boardStep_cellAt h x y with ⟨_, h2⟩ | ⟨c, d, h1, h2, hcd⟩
  · rw [h2] at hc2
    cases hc2
  · rw [h2] at hc2
    cases hc2
    refine ⟨c, h1, ?_, ?_⟩
    · rw [← cellStep_adjacentMines hcd]
      exact hadj
    · rw [← cellStep_isMine hcd]
      exact hm

theorem Reach_antitone {b b2 : Board} (h : boardStep b b2) {sx sy px py : Int}
    (hr : Reach b2 sx sy px py) : Reach b sx sy px py := by
  induction hr with
  | start h0 => exact Reach.start (revealableP_antitone h h0)
  | step hr0 hexp hd hrev ih =>
    exact Reach.step ih (expandableP_antitone h hexp) hd (revealableP_antitone h hrev)

theorem Reach_prepend {b : Board} {x y nx ny px py : Int} (hexp : expandableP b x y)
    (hd : (nx - x, ny - y) ∈ offsets8) (h : Reach b nx ny px py) :
    Reach b x y px py := by
  induction h with
  | start hrev => exact Reach.step (Reach.start hexp.1) hexp hd hrev
  | step hr0 hexp2 hd2 hrev2 ih => exact Reach.step ih hexp2 hd2 hrev2

theorem Reach_revealable_start {b : Board} {sx sy px py : Int}
    (h : Reach b sx sy px py) : revealableP b sx sy := by
  induction h with
  | start h0 => exact h0
  | step _ _ _ _ ih => exact ih

/-- Soundness of the flood fill: every cell revealed by `revealAux` was
either already revealed or is reachable from the clicked cell. -/
theorem revealAux_sound : ∀ (fuel : Nat) (b : Board) (x y px py : Int),
    statusAt (revealAux fuel b x y) px py = some CellStatus.revealed →
    statusAt b px py = some CellStatus.revealed ∨ Reach b x y px py := by
  intro fuel
  induction fuel with
  | zero =>
    intro b x y px py h
    exact Or.inl h
  | succ fuel ih =>
    intro b x y px py h
    simp only [revealAux] at h
    by_cases hgd : revealGuard b x y = true
    · rw [if_pos hgd] at h
      exact Or.inl h
    · rw [if_neg hgd] at h
      have hgf : revealGuard b x y = false := by
        cases hg2 : revealGuard b x y
        · rfl
        · exact absurd hg2 hgd
      obtain ⟨hvalid, hhid⟩ := revealGuard_false hgf
      cases hcell : cellAt b x y with
      | none =>
        have hb1 : setRevealed b x y = b := setRevealed_eq_self_of_none hcell
        rw [hb1, hcell] at h
        simp only [Option.map_none', Option.getD_none, Bool.false_eq_true, if_false] at h
        exact Or.inl h
      | some c =>
        have hcs : c.status = CellStatus.hidden := hhid c hcell
        have hrev : revealableP b x y := by
          refine ⟨hvalid, ?_⟩
          unfold statusAt
          rw [hcell, Option.map_some', hcs]
        have hb1cell : cellAt (setRevealed b x y) x y
            = some { c with status := CellStatus.revealed } := cellAt_setRevealed_self hcell
        rw [hb1cell] at h
        simp only [Option.map_some', Option.getD_some] at h
        have hb1case : statusAt (setRevealed b x y) px py = some CellStatus.revealed →
            statusAt b px py = some CellStatus.revealed ∨ Reach b x y px py := by
          intro hb1
          by_cases hpq : px = x ∧ py = y
          · obtain ⟨rfl, rfl⟩ := hpq
            exact Or.inr (Reach.start hrev)
          · left
            unfold statusAt at hb1 ⊢
            rw [cellAt_setRevealed_frame hpq] at hb1
            exact hb1
        by_cases hz : (c.adjacentMines == 0 && !c.isMine) = true
        · rw [if_pos hz] at h
          have hz2 : c.adjacentMines = 0 ∧ c.isMine = false := by
            simp only [Bool.and_eq_true, beq_iff_eq, Bool.not_eq_true'] at hz
            exact hz
          have hexp : expandableP b x y := ⟨hrev, c, hcell, hz2.1, hz2.2⟩
          have hstep01 : boardStep b (setRevealed b x y) := boardStep_setRevealed b x y hhid
          have hfold : ∀ (offs : List (Int × Int)), (∀ d ∈ offs, d ∈ offsets8) →
              ∀ acc, boardStep (setRevealed b x y) acc →
              statusAt (offs.foldl (fun acc d => revealAux fuel acc (x + d.1) (y + d.2)) acc)
                  px py = some CellStatus.revealed →
              statusAt acc px py = some CellStatus.revealed ∨ Reach b x y px py := by
            intro offs
            induction offs with
            | nil =>
              intro _ acc _ hres
              exact Or.inl hres
            | cons e rest ihf =>
              intro hsub acc hstep hres
              simp only [List.foldl_cons] at hres
              have hstepe : boardStep acc (revealAux fuel acc (x + e.1) (y + e.2)) :=
                boardStep_revealAux fuel acc _ _
              rcases ihf (fun d hd => hsub d (List.mem_cons_of_mem _ hd)) _
                  (boardStep_trans hstep hstepe) hres with hacc1 | hreach
              · rcases ih acc (x + e.1) (y + e.2) px py hacc1 with hacc | hreach2
                · exact Or.inl hacc
                · right
                  have hbacc : boardStep b acc := boardStep_trans hstep01 hstep
                  have hReachb : Reach b (x + e.1) (y + e.2) px py :=
                    Reach_antitone hbacc hreach2
                  refine Reach_prepend hexp ?_ hReachb
                  have he : ((x + e.1 - x, y + e.2 - y) : Int × Int) = e := by
                    have h1 : x + e.1 - x = e.1 := by ring
                    have h2 : y + e.2 - y = e.2 := by ring
                    rw [h1, h2]
                  rw [he]
                  exact hsub e (List.mem_cons_self _ _)
              · exact Or.inr hreach
          rcases hfold offsets8 (fun d hd => hd) _ (boardStep_refl _) h with hb1 | hreach
          · exact hb1case hb1
          · exact Or.inr hreach
        · rw [if_neg hz] at h
          exact hb1case h

/-- With at least one unit of fuel, calling the inner `reveal` on a
hidden in-bounds cell reveals it. -/
theorem revealAux_reveals_self : ∀ (fuel : Nat), 1 ≤ fuel → ∀ (b : Board) (x y : Int),
    revealableP b x y → statusAt (revealAux fuel b x y) x y = some CellStatus.revealed := by
  intro fuel hfuel
  cases fuel with
  | zero => omega
  | succ fuel =>
    intro b x y hrev
    simp only [revealAux]
    rw [revealGuard_false_of_revealable hrev]
    simp only [Bool.false_eq_true, if_false]
    obtain ⟨hv, hs⟩ := hrev
    have hcell : ∃ c, cellAt b x y = some c := by
      unfold statusAt at hs
      cases hc : cellAt b x y with
      | none =>
        rw [hc] at hs
        cases hs
      | some c => exact ⟨c, rfl⟩
    obtain ⟨c, hcell⟩ := hcell
    have hself : statusAt (setRevealed b x y) x y = some CellStatus.revealed :=
      statusAt_setRevealed_self hcell
    rw [cellAt_setRevealed_self hcell]
    simp only [Option.map_some', Option.getD_some]
    by_cases hz : (c.adjacentMines == 0 && !c.isMine) = true
    · rw [if_pos hz]
      exact boardStep_revealed_mono
        (boardStep_foldl (fun a d => boardStep_revealAux fuel a _ _) offsets8 _) x y hself
    · rw [if_neg hz]
      exact hself

/-- Expansion invariant of the flood fill: any zero-adjacency non-mine
cell that a `revealAux` call newly reveals has all its hidden in-bounds
neighbours revealed in that call's result (given enough fuel). -/
theorem revealAux_expands : ∀ (fuel : Nat) (b : Board) (x y qx qy px py : Int),
    nonRevealedCount b < fuel →
    isValidCell b qx qy = true →
    (∃ cq, cellAt b qx qy = some cq ∧ cq.adjacentMines = 0 ∧ cq.isMine = false) →
    statusAt b qx qy = some CellStatus.hidden →
    statusAt (revealAux fuel b x y) qx qy = some CellStatus.revealed →
    (px - qx, py - qy) ∈ offsets8 →
    revealableP b px py →
    statusAt (revealAux fuel b x y) px py = some CellStatus.revealed := by
  intro fuel
  induction fuel with
  | zero =>
    intro b x y qx qy px py hf
    omega
  | succ fuel ih =>
    intro b x y qx qy px py hf hqv hqfields hqhid hqres hd hprev
    simp only [revealAux] at hqres ⊢
    by_cases hgd : revealGuard b x y = true
    · rw [if_pos hgd] at hqres ⊢
      rw [hqhid] at hqres
      simp at hqres
    · rw [if_neg hgd] at hqres ⊢
      have hgf : revealGuard b x y = false := by
        cases hg2 : revealGuard b x y
        · rfl
        · exact absurd hg2 hgd
      obtain ⟨hvalid, hhid⟩ := revealGuard_false hgf
      cases hcell : cellAt b x y with
      | none =>
        have hb1 : setRevealed b x y = b := setRevealed_eq_self_of_none hcell
        rw [hb1, hcell] at hqres ⊢
        simp only [Option.map_none', Option.getD_none, Bool.false_eq_true, if_false] at hqres ⊢
        rw [hqhid] at hqres
        simp at hqres
      | some c =>
        have hcs : c.status = CellStatus.hidden := hhid c hcell
        have hb1cell := cellAt_setRevealed_self hcell
        rw [hb1cell] at hqres ⊢
        simp only [Option.map_some', Option.getD_some] at hqres ⊢
        have hstep01 : boardStep b (setRevealed b x y) := boardStep_setRevealed b x y hhid
        have hcount : nonRevealedCount b = nonRevealedCount (setRevealed b x y) + 1 :=
          nonRevealedCount_setRevealed hcell hcs
        have hfuel1 : 1 ≤ fuel := by omega
        by_cases hz : (c.adjacentMines == 0 && !c.isMine) = true
        · rw [if_pos hz] at hqres ⊢
          by_cases hpq : qx = x ∧ qy = y
          · obtain ⟨he1, he2⟩ := hpq
            rw [he1, he2] at hd
            have hpne : ¬(px = x ∧ py = y) := by
              rintro ⟨rfl, rfl⟩
              exact offsets8_ne_zero _ hd ⟨by simp, by simp⟩
            have hp1 : statusAt (setRevealed b x y) px py = some CellStatus.hidden := by
              unfold statusAt
              rw [cellAt_setRevealed_frame hpne]
              exact hprev.2
            have hG : ∀ (offs : List (Int × Int)) (acc : Board),
                boardStep (setRevealed b x y) acc →
                ((px - x, py - y) : Int × Int) ∈ offs →
                (statusAt acc px py = some CellStatus.hidden ∨
                  statusAt acc px py = some CellStatus.revealed) →
                statusAt (offs.foldl (fun acc d => revealAux fuel acc (x + d.1) (y + d.2)) acc)
                  px py = some CellStatus.revealed := by
              intro offs
              induction offs with
              | nil =>
                intro acc _ hmem _
                cases hmem
              | cons e rest ihg =>
                intro acc hstep hmem hstat
                simp only [List.foldl_cons]
                have hstepe : boardStep acc (revealAux fuel acc (x + e.1) (y + e.2)) :=
                  boardStep_revealAux fuel acc _ _
                rcases List.mem_cons.mp hmem with heq | hmem2
                · subst heq
                  have hx1 : x + ((px - x, py - y) : Int × Int).1 = px := by
                    simp only []
                    omega
                  have hy1 : y + ((px - x, py - y) : Int × Int).2 = py := by
                    simp only []
                    omega
                  rw [hx1, hy1]
                  have hvacc : isValidCell acc px py = true := by
                    rw [boardStep_isValidCell hstep, boardStep_isValidCell hstep01]
                    exact hprev.1
                  rcases hstat with hh | hr
                  · have hcall : statusAt (revealAux fuel acc px py) px py
                        = some CellStatus.revealed :=
                      revealAux_reveals_self fuel hfuel1 acc px py ⟨hvacc, hh⟩
                    exact boardStep_revealed_mono
                      (boardStep_foldl (fun a d => boardStep_revealAux fuel a _ _) rest _)
                      px py hcall
                  · have hcall : statusAt (revealAux fuel acc px py) px py
                        = some CellStatus.revealed :=
                      boardStep_revealed_mono (boardStep_revealAux fuel acc px py) px py hr
                    exact boardStep_revealed_mono
                      (boardStep_foldl (fun a d => boardStep_revealAux fuel a _ _) rest _)
                      px py hcall
                · apply ihg _ (boardStep_trans hstep hstepe) hmem2
                  rcases hstat with hh | hr
                  · rcases boardStep_status_or hstepe px py with heq2 | ⟨_, hrev2⟩
                    · left
                      rw [heq2]
                      exact hh
                    · right
                      exact hrev2
                  · right
                    exact boardStep_revealed_mono hstepe px py hr
            exact hG offsets8 _ (boardStep_refl _) hd (Or.inl hp1)
          · have hq1 : statusAt (setRevealed b x y) qx qy = some CellStatus.hidden := by
              unfold statusAt
              rw [cellAt_setRevealed_frame hpq]
              exact hqhid
            have hp1 : statusAt (setRevealed b x y) px py = some CellStatus.hidden ∨
                statusAt (setRevealed b x y) px py = some CellStatus.revealed := by
              rcases boardStep_status_or hstep01 px py with heq2 | ⟨_, hrev2⟩
              · left
                rw [heq2]
                exact hprev.2
              · right
                exact hrev2
            have hT : ∀ (offs : List (Int × Int)) (acc : Board),
                boardStep b acc →
                boardStep (setRevealed b x y) acc →
                statusAt acc qx qy = some CellStatus.hidden →
                statusAt (offs.foldl (fun acc d => revealAux fuel acc (x + d.1) (y + d.2)) acc)
                    qx qy = some CellStatus.revealed →
                (statusAt acc px py = some CellStatus.hidden ∨
                  statusAt acc px py = some CellStatus.revealed) →
                statusAt (offs.foldl (fun acc d => revealAux fuel acc (x + d.1) (y + d.2)) acc)
                    px py = some CellStatus.revealed := by
              intro offs
              induction offs with
              | nil =>
                intro acc _ _ hq hqres2 _
                simp only [List.foldl_nil] at hqres2
                rw [hq] at hqres2
                simp at hqres2
              | cons e rest ihT =>
                intro acc hbacc hstep hqacc hqres2 hpacc
                simp only [List.foldl_cons] at hqres2 ⊢
                have hstepe : boardStep acc (revealAux fuel acc (x + e.1) (y + e.2)) :=
                  boardStep_revealAux fuel acc _ _
                by_cases hq1b : statusAt (revealAux fuel acc (x + e.1) (y + e.2)) qx qy
                    = some CellStatus.hidden
                · apply ihT _ (boardStep_trans hbacc hstepe) (boardStep_trans hstep hstepe)
                    hq1b hqres2
                  rcases hpacc with hh | hr
                  · rcases boardStep_status_or hstepe px py with heq2 | ⟨_, hrev2⟩
                    · left
                      rw [heq2]
                      exact hh
                    · right
                      exact hrev2
                  · right
                    exact boardStep_revealed_mono hstepe px py hr
                · have hq2 : statusAt (revealAux fuel acc (x + e.1) (y + e.2)) qx qy
                      = some CellStatus.revealed := by
                    rcases boardStep_status_or hstepe qx qy with heq2 | ⟨_, hrev2⟩
                    · exact absurd (by rw [heq2]; exact hqacc) hq1b
                    · exact hrev2
                  rcases hpacc with hh | hr
                  · have hcall : statusAt (revealAux fuel acc (x + e.1) (y + e.2)) px py
                        = some CellStatus.revealed := by
                      apply ih acc (x + e.1) (y + e.2) qx qy px py
                      · have hle := nonRevealedCount_mono hstep
                        omega
                      · rw [boardStep_isValidCell hbacc]
                        exact hqv
                      · obtain ⟨cq, hcq, hadj, hm⟩ := hqfields
                        obtain ⟨cq2, hcq2, hm2, hadj2⟩ := boardStep_fields hbacc hcq
                        refine ⟨cq2, hcq2, ?_, ?_⟩
                        · rw [hadj2]
                          exact hadj
                        · rw [hm2]
                          exact hm
                      · exact hqacc
                      · exact hq2
                      · exact hd
                      · refine ⟨?_, hh⟩
                        rw [boardStep_isValidCell hbacc]
                        exact hprev.1
                    exact boardStep_revealed_mono
                      (boardStep_foldl (fun a d => boardStep_revealAux fuel a _ _) rest _)
                      px py hcall
                  · have hcall : statusAt (revealAux fuel acc (x + e.1) (y + e.2)) px py
                        = some CellStatus.revealed :=
                      boardStep_revealed_mono hstepe px py hr
                    exact boardStep_revealed_mono
                      (boardStep_foldl (fun a d => boardStep_revealAux fuel a _ _) rest _)
                      px py hcall
            exact hT offsets8 _ hstep01 (boardStep_refl _) hq1 hqres hp1
        · rw [if_neg hz] at hqres ⊢
          by_cases hpq : qx = x ∧ qy = y
          · obtain ⟨he1, he2⟩ := hpq
            obtain ⟨cq, hcq, hadj, hm⟩ := hqfields
            rw [he1, he2, hcell] at hcq
            cases hcq
            exact absurd (by simp [hadj, hm]) hz
          · unfold statusAt at hqres
            rw [cellAt_setRevealed_frame hpq] at hqres
            unfold statusAt at hqhid
            rw [hqhid] at hqres
            simp at hqres

/-- Completeness of the flood fill: every reachable cell ends up
revealed. -/
theorem revealCell_reveals_reach {b : Board} {x y px py : Int}
    (h : Reach b x y px py) :
    statusAt (revealCell b x y) px py = some CellStatus.revealed := by
  have hrev0 : revealableP b x y := Reach_revealable_start h
  have hgf : revealGuard b x y = false := revealGuard_false_of_revealable hrev0
  unfold revealCell
  rw [hgf]
  simp only [Bool.false_eq_true, if_false]
  induction h with
  | start h0 => exact revealAux_reveals_self _ (by omega) b x y h0
  | step hr hexp hd hrev ihstep =>
    refine revealAux_expands (totalCells b + 1) b x y _ _ _ _ ?_ hexp.1.1 hexp.2 hexp.1.2
      ihstep hd hrev
    have := nonRevealedCount_le_totalCells b
    omega

/-- C2: `revealCell` is a no-op on out-of-bounds, revealed, or flagged
targets; otherwise it reveals the clicked cell, never changes a flagged
cell, and the cells revealed afterwards are exactly the previously
revealed cells together with the `Reach`-able ones — the connected
zero-adjacency region the fill can traverse (through hidden zero
non-mine cells) plus its immediate border. -/
theorem claim_C2_revealCell_spec (b : Board) (w h : Nat) (x y : Int) (hrect : Rect b w h) :
    (revealGuard b x y = true → revealCell b x y = b)
    ∧ (revealGuard b x y = false →
        statusAt (revealCell b x y) x y = some CellStatus.revealed
        ∧ (∀ px py : Int, statusAt b px py = some CellStatus.flagged →
            statusAt (revealCell b x y) px py = some CellStatus.flagged)
        ∧ (∀ px py : Int,
            statusAt (revealCell b x y) px py = some CellStatus.revealed ↔
              (statusAt b px py = some CellStatus.revealed ∨ Reach b x y px py))) := by
  constructor
  · intro hgd
    unfold revealCell
    rw [hgd]
    simp
  · intro hgf
    obtain ⟨hvalid, hhid⟩ := revealGuard_false hgf
    have hrev : revealableP b x y := by
      refine ⟨hvalid, ?_⟩
      obtain ⟨c, hc⟩ := (rect_cellAt_isSome hrect x y).mpr hvalid
      unfold statusAt
      rw [hc, Option.map_some', hhid c hc]
    refine ⟨?_, ?_, ?_⟩
    · exact revealCell_reveals_reach (Reach.start hrev)
    · intro px py hflag
      exact boardStep_flagged (boardStep_revealCell b x y) px py hflag
    · intro px py
      constructor
      · intro hres
        unfold revealCell at hres
        rw [hgf] at hres
        simp only [Bool.false_eq_true, if_false] at hres
        exact revealAux_sound _ b x y px py hres
      · rintro (hrev2 | hreach)
        · exact boardStep_revealed_mono (boardStep_revealCell b x y) px py hrev2
        · exact revealCell_reveals_reach hreach

/-- C2 witness: revealing the corner of an empty 2x2 board (a
zero-adjacency cell) reveals it. -/
theorem claim_C2_revealCell_spec_witness :
    statusAt (revealCell (createEmptyBoard 2 2) 0 0) 0 0 = some CellStatus.revealed :=
  ((claim_C2_revealCell_spec (createEmptyBoard 2 2) 2 2 0 0
    (by unfold Rect; exact ⟨by decide, by decide⟩)).2 (by decide)).1
